import Mathlib

/-!
Verification of the ZUMBLE Mumble voice server (Rust) against its
natural-language specification.

This file contains a shallow embedding, in Lean 4, of the parts of the
source that the checked claims are about:

* the Mumble varint codec (`src/varint.rs`),
* the voice frame codec (`src/voice.rs`),
* the OCB-AES128 crypt channel (`src/crypt.rs`),
* the voice router (`src/handler/voice_packet.rs`),
* the anonymous-ping and dead-client logic of the UDP server
  (`src/server/udp.rs`),
* the channel map and its cleanup rules (`src/state.rs`,
  `src/handler/user_state.rs`, `src/handler/channel_state.rs`).

Machine integers are modelled as `Nat` with explicit `% 2 ^ w` at the
points where the Rust code wraps (`wrapping_add`, `as u8`, `as u32`
casts); byte buffers are `List Nat` whose elements are below 256; the
AES-128 block cipher (an external crate, not part of this repository)
is a parameter: an arbitrary permutation pair on 128-bit blocks.
-/

namespace Zumble

/-! ## Byte strings

`bytesToNatBE bs` is the value of the byte string `bs` read in big-endian
order (the semantics of `u128::from_be_bytes` / `read_u32::<BigEndian>`),
and `natToBytesBE k n` is the `k`-byte big-endian encoding of `n`
(the semantics of `to_be_bytes`).  Little-endian variants are the
reverses. -/

def bytesToNatBE (bs : List Nat) : Nat :=
  bs.foldl (fun acc b => acc * 256 + b) 0

def natToBytesBE : Nat → Nat → List Nat
  | 0, _ => []
  | k + 1, n => (n / 256 ^ k) % 256 :: natToBytesBE k n

def bytesToNatLE (bs : List Nat) : Nat := bytesToNatBE bs.reverse

def natToBytesLE (k n : Nat) : List Nat := (natToBytesBE k n).reverse

theorem bytesToNatBE_foldl_acc (bs : List Nat) : ∀ acc : Nat,
    List.foldl (fun acc b => acc * 256 + b) acc bs
      = acc * 256 ^ bs.length + bytesToNatBE bs := by
  induction bs with
  | nil => intro acc; simp [bytesToNatBE]
  | cons b bs ih =>
    intro acc
    simp only [List.foldl_cons, bytesToNatBE, Nat.zero_mul, Nat.zero_add]
    rw [ih (acc * 256 + b), ih b]
    simp only [List.length_cons]
    ring

theorem bytesToNatBE_cons (b : Nat) (bs : List Nat) :
    bytesToNatBE (b :: bs) = b * 256 ^ bs.length + bytesToNatBE bs := by
  simpa [bytesToNatBE] using bytesToNatBE_foldl_acc bs b

theorem natToBytesBE_length (k n : Nat) : (natToBytesBE k n).length = k := by
  induction k generalizing n with
  | zero => simp [natToBytesBE]
  | succ k ih => simp [natToBytesBE, ih]

theorem natToBytesBE_mem_lt (k n : Nat) : ∀ b ∈ natToBytesBE k n, b < 256 := by
  induction k generalizing n with
  | zero => simp [natToBytesBE]
  | succ k ih =>
    intro b hb
    simp only [natToBytesBE, List.mem_cons] at hb
    rcases hb with h | h
    · exact h ▸ Nat.mod_lt _ (by norm_num)
    · exact ih n b h

theorem bytesToNatBE_lt (bs : List Nat) (h : ∀ b ∈ bs, b < 256) :
    bytesToNatBE bs < 256 ^ bs.length := by
  induction bs with
  | nil => simp [bytesToNatBE]
  | cons b bs ih =>
    rw [bytesToNatBE_cons]
    have hb : b < 256 := h b (by simp)
    have hbs : bytesToNatBE bs < 256 ^ bs.length := ih (fun x hx => h x (by simp [hx]))
    have : b * 256 ^ bs.length + bytesToNatBE bs < (b + 1) * 256 ^ bs.length := by
      nlinarith [Nat.pos_pow_of_pos bs.length (show 0 < 256 by norm_num)]
    calc b * 256 ^ bs.length + bytesToNatBE bs
        < (b + 1) * 256 ^ bs.length := this
      _ ≤ 256 * 256 ^ bs.length := by
          exact Nat.mul_le_mul_right _ (by omega)
      _ = 256 ^ (b :: bs).length := by
          simp [List.length_cons, Nat.pow_succ, Nat.mul_comm]

theorem natToBytesBE_add_mul_pow (k B b : Nat) :
    natToBytesBE k (B + b * 256 ^ k) = natToBytesBE k B := by
  induction k generalizing b with
  | zero => simp [natToBytesBE]
  | succ k ih =>
    simp only [natToBytesBE, List.cons.injEq]
    refine ⟨?_, ?_⟩
    · have h1 : (B + b * 256 ^ (k + 1)) / 256 ^ k = B / 256 ^ k + b * 256 := by
        rw [Nat.pow_succ]
        rw [show B + b * (256 ^ k * 256) = B + (b * 256) * 256 ^ k by ring]
        exact Nat.add_mul_div_right _ _ (Nat.pos_pow_of_pos k (by norm_num))
      rw [h1, Nat.add_mul_mod_self_right]
    · have h2 : B + b * 256 ^ (k + 1) = B + (b * 256) * 256 ^ k := by
        rw [Nat.pow_succ]; ring
      rw [h2, ih]

theorem bytesToNatBE_natToBytesBE (k n : Nat) :
    bytesToNatBE (natToBytesBE k n) = n % 256 ^ k := by
  induction k generalizing n with
  | zero => simp [natToBytesBE, bytesToNatBE, Nat.mod_one]
  | succ k ih =>
    simp only [natToBytesBE]
    rw [bytesToNatBE_cons, natToBytesBE_length, ih]
    have h256 : 256 ^ (k + 1) = 256 ^ k * 256 := Nat.pow_succ 256 k
    rw [h256, Nat.mod_mul]
    ring

theorem natToBytesBE_bytesToNatBE (k : Nat) (bs : List Nat)
    (hlen : bs.length = k) (hlt : ∀ b ∈ bs, b < 256) :
    natToBytesBE k (bytesToNatBE bs) = bs := by
  induction bs generalizing k with
  | nil => subst hlen; simp [natToBytesBE]
  | cons b bs ih =>
    subst hlen
    simp only [List.length_cons, natToBytesBE]
    rw [bytesToNatBE_cons]
    have hb : b < 256 := hlt b (by simp)
    have hbs : bytesToNatBE bs < 256 ^ bs.length :=
      bytesToNatBE_lt bs (fun x hx => hlt x (by simp [hx]))
    have hdiv : (b * 256 ^ bs.length + bytesToNatBE bs) / 256 ^ bs.length = b := by
      rw [Nat.mul_comm, Nat.mul_add_div (Nat.pos_pow_of_pos _ (by norm_num)),
        Nat.div_eq_of_lt hbs]
      omega
    simp only [List.cons.injEq]
    refine ⟨?_, ?_⟩
    · rw [hdiv, Nat.mod_eq_of_lt hb]
    · rw [show b * 256 ^ bs.length + bytesToNatBE bs
          = bytesToNatBE bs + b * 256 ^ bs.length by ring,
        natToBytesBE_add_mul_pow]
      exact ih bs.length rfl (fun x hx => hlt x (by simp [hx]))

theorem bytesToNatBE_lt_two_pow (bs : List Nat) (hlt : ∀ b ∈ bs, b < 256) :
    bytesToNatBE bs < 2 ^ (8 * bs.length) := by
  have := bytesToNatBE_lt bs hlt
  have h : (256 : Nat) ^ bs.length = 2 ^ (8 * bs.length) := by
    rw [Nat.pow_mul]
  omega

/-- Key digit lemma: XOR acts independently on the high and low parts when
the low parts are below the split point. -/
theorem xor_split (i a b c d : Nat) (hb : b < 2 ^ i) (hd : d < 2 ^ i) :
    (a * 2 ^ i + b) ^^^ (c * 2 ^ i + d) = (a ^^^ c) * 2 ^ i + (b ^^^ d) := by
  apply Nat.eq_of_testBit_eq
  intro j
  have hbd : b ^^^ d < 2 ^ i := Nat.xor_lt_two_pow hb hd
  rw [Nat.testBit_xor,
    show a * 2 ^ i + b = 2 ^ i * a + b by ring,
    show c * 2 ^ i + d = 2 ^ i * c + d by ring,
    show (a ^^^ c) * 2 ^ i + (b ^^^ d) = 2 ^ i * (a ^^^ c) + (b ^^^ d) by ring,
    Nat.testBit_mul_pow_two_add _ hb, Nat.testBit_mul_pow_two_add _ hd,
    Nat.testBit_mul_pow_two_add _ hbd]
  by_cases hj : j < i
  · simp [hj, Nat.testBit_xor]
  · simp [hj, Nat.testBit_xor]

theorem bytesToNatBE_zipWith_xor (as bs : List Nat)
    (hlen : as.length = bs.length)
    (ha : ∀ b ∈ as, b < 256) (hb : ∀ b ∈ bs, b < 256) :
    bytesToNatBE (List.zipWith (fun x y => x ^^^ y) as bs)
      = bytesToNatBE as ^^^ bytesToNatBE bs := by
  induction as generalizing bs with
  | nil =>
    cases bs with
    | nil => simp [bytesToNatBE]
    | cons y ys => simp at hlen
  | cons x xs ih =>
    cases bs with
    | nil => simp at hlen
    | cons y ys =>
      simp only [List.zipWith_cons_cons]
      rw [bytesToNatBE_cons, bytesToNatBE_cons, bytesToNatBE_cons]
      have hlen' : xs.length = ys.length := by simpa using hlen
      have hzlen : (List.zipWith (fun x y => x ^^^ y) xs ys).length = xs.length := by
        simp [hlen']
      rw [hzlen, ih ys hlen' (fun b h => ha b (by simp [h])) (fun b h => hb b (by simp [h]))]
      have hxs : bytesToNatBE xs < 2 ^ (8 * xs.length) :=
        bytesToNatBE_lt_two_pow xs (fun b h => ha b (by simp [h]))
      have hys : bytesToNatBE ys < 2 ^ (8 * xs.length) := by
        have := bytesToNatBE_lt_two_pow ys (fun b h => hb b (by simp [h]))
        rwa [← hlen'] at this
      have h256 : (256 : Nat) ^ xs.length = 2 ^ (8 * xs.length) := by
        rw [Nat.pow_mul]
      rw [← hlen', h256]
      exact (xor_split (8 * xs.length) x (bytesToNatBE xs) y (bytesToNatBE ys) hxs hys).symm

/-- Disjoint OR is addition: `x ||| y = x + y` when `x` is a multiple of
`2 ^ k` and `y < 2 ^ k`. -/
theorem lor_eq_add_of_disjoint (k x y : Nat) (hx : x % 2 ^ k = 0) (hy : y < 2 ^ k) :
    x ||| y = x + y := by
  obtain ⟨m, hm⟩ := Nat.dvd_of_mod_eq_zero hx
  subst hm
  apply Nat.eq_of_testBit_eq
  intro j
  rw [Nat.testBit_lor, Nat.testBit_mul_pow_two_add _ hy]
  have hxj : (2 ^ k * m).testBit j = if j < k then false else m.testBit (j - k) := by
    have h : 2 ^ k * m + 0 = 2 ^ k * m := by omega
    rw [← h, Nat.testBit_mul_pow_two_add _ (Nat.pos_pow_of_pos k (by norm_num))]
    simp
  by_cases hj : j < k
  · simp [hxj, hj]
  · have hyj : y.testBit j = false := by
      apply Nat.testBit_lt_two_pow
      calc y < 2 ^ k := hy
        _ ≤ 2 ^ j := Nat.pow_le_pow_right (by norm_num) (by omega)
    simp [hxj, hj, hyj]

/-! ## Varint codec (`src/varint.rs`)

Mumble's 7-bit-continuation varint.  `u64Not v` is the bitwise
complement of a `u64` (`!v` in Rust), which for `v < 2 ^ 64` equals
`2 ^ 64 - 1 - v`.  The source `write_varint` recurses once on `!value`
when bit 63 is set; since `!value < 2 ^ 63` that recursive call takes
none of the two negative branches, so it is exactly `writeVarintSmall`
(the remaining branch chain) applied to `u64Not value`. -/

def u64Not (v : Nat) : Nat := 18446744073709551615 - v

def writeVarintSmall (value : Nat) : List Nat :=
  if value > 0xffffffff then
    [0xf4, (value >>> 56) % 256, (value >>> 48) % 256, (value >>> 40) % 256,
      (value >>> 32) % 256, (value >>> 24) % 256, (value >>> 16) % 256,
      (value >>> 8) % 256, value % 256]
  else if value > 0xfffffff then
    [0xf0, (value >>> 24) % 256, (value >>> 16) % 256, (value >>> 8) % 256, value % 256]
  else if value > 0x1fffff then
    [0xe0 ||| (value >>> 24) % 256, (value >>> 16) % 256, (value >>> 8) % 256, value % 256]
  else if value > 0x3fff then
    [0xc0 ||| (value >>> 16) % 256, (value >>> 8) % 256, value % 256]
  else if value > 0x7f then
    [0x80 ||| (value >>> 8) % 256, value % 256]
  else
    [value % 256]

def writeVarint (value : Nat) : List Nat :=
  if value &&& 0xfffffffffffffffc = 0xfffffffffffffffc then
    [0xfc ||| (u64Not value) % 256]
  else if value &&& 0x8000000000000000 = 0x8000000000000000 then
    0xf8 :: writeVarintSmall (u64Not value)
  else
    writeVarintSmall value

def readVarint : List Nat → Option (Nat × List Nat)
  | [] => none
  | b0 :: r0 =>
    if b0 &&& 0xfc = 0xf8 then
      match readVarint r0 with
      | none => none
      | some (v, r) => some (u64Not v, r)
    else if b0 &&& 0xfc = 0xfc then some (u64Not (b0 &&& 0x03), r0)
    else if b0 &&& 0x80 = 0 then some (b0 &&& 0x7f, r0)
    else match r0 with
      | [] => none
      | b1 :: r1 =>
        if b0 &&& 0x40 = 0 then some (((b0 &&& 0x3f) <<< 8) ||| b1, r1)
        else match r1 with
          | [] => none
          | b2 :: r2 =>
            if b0 &&& 0x20 = 0 then
              some (((b0 &&& 0x1f) <<< 16) ||| (b1 <<< 8) ||| b2, r2)
            else match r2 with
              | [] => none
              | b3 :: r3 =>
                if b0 &&& 0x10 = 0 then
                  some (((b0 &&& 0x0f) <<< 24) ||| (b1 <<< 16) ||| (b2 <<< 8) ||| b3, r3)
                else match r3 with
                  | [] => none
                  | b4 :: r4 =>
                    if b0 &&& 0x04 = 0 then
                      some ((b1 <<< 24) ||| (b2 <<< 16) ||| (b3 <<< 8) ||| b4, r4)
                    else match r4 with
                      | b5 :: b6 :: b7 :: b8 :: r8 =>
                        some ((b1 <<< 56) ||| (b2 <<< 48) ||| (b3 <<< 40) ||| (b4 <<< 32)
                          ||| (b5 <<< 24) ||| (b6 <<< 16) ||| (b7 <<< 8) ||| b8, r8)
                      | _ => none

theorem and_two_pow_div (n i : Nat) :
    n &&& 2 ^ i = if n / 2 ^ i % 2 = 1 then 2 ^ i else 0 := by
  rw [Nat.and_two_pow, Nat.testBit_to_div_mod]
  by_cases h : n / 2 ^ i % 2 = 1 <;> simp [h]

theorem shiftLeft_lor_byte (x b k : Nat) (hb : b < 256) (hx : x % 2 ^ (k + 8) = 0) :
    x ||| (b <<< k) = x + b * 2 ^ k := by
  rw [Nat.shiftLeft_eq]
  refine lor_eq_add_of_disjoint (k + 8) x (b * 2 ^ k) hx ?_
  calc b * 2 ^ k < 256 * 2 ^ k :=
        Nat.mul_lt_mul_of_lt_of_le hb (Nat.le_refl _) (Nat.pos_pow_of_pos _ (by norm_num))
    _ = 2 ^ (k + 8) := by rw [Nat.pow_add]; ring

theorem lor_byte (x b : Nat) (hb : b < 256) (hx : x % 256 = 0) :
    x ||| b = x + b := by
  exact lor_eq_add_of_disjoint 8 x b (by simpa using hx) (by simpa using hb)

theorem and128 (n : Nat) : n &&& 0x80 = if n / 128 % 2 = 1 then 128 else 0 := by
  have h := and_two_pow_div n 7
  norm_num at h
  exact h

theorem and64 (n : Nat) : n &&& 0x40 = if n / 64 % 2 = 1 then 64 else 0 := by
  have h := and_two_pow_div n 6
  norm_num at h
  exact h

theorem and32 (n : Nat) : n &&& 0x20 = if n / 32 % 2 = 1 then 32 else 0 := by
  have h := and_two_pow_div n 5
  norm_num at h
  exact h

theorem and16 (n : Nat) : n &&& 0x10 = if n / 16 % 2 = 1 then 16 else 0 := by
  have h := and_two_pow_div n 4
  norm_num at h
  exact h

theorem and4 (n : Nat) : n &&& 0x04 = if n / 4 % 2 = 1 then 4 else 0 := by
  have h := and_two_pow_div n 2
  norm_num at h
  exact h

theorem and127 (n : Nat) : n &&& 0x7f = n % 128 := by
  have h := Nat.and_pow_two_sub_one_eq_mod n 7
  norm_num at h
  exact h

theorem and63 (n : Nat) : n &&& 0x3f = n % 64 := by
  have h := Nat.and_pow_two_sub_one_eq_mod n 6
  norm_num at h
  exact h

theorem and31 (n : Nat) : n &&& 0x1f = n % 32 := by
  have h := Nat.and_pow_two_sub_one_eq_mod n 5
  norm_num at h
  exact h

theorem and15 (n : Nat) : n &&& 0x0f = n % 16 := by
  have h := Nat.and_pow_two_sub_one_eq_mod n 4
  norm_num at h
  exact h

theorem and3 (n : Nat) : n &&& 0x03 = n % 4 := by
  have h := Nat.and_pow_two_sub_one_eq_mod n 2
  norm_num at h
  exact h

theorem orChain3 (c1 c2 c3 : Nat) (h2 : c2 < 256) (h3 : c3 < 256) :
    (c1 <<< 16) ||| (c2 <<< 8) ||| c3 = c1 * 2 ^ 16 + c2 * 2 ^ 8 + c3 := by
  simp only [Nat.shiftLeft_eq]
  have e1 : c1 * 2 ^ 16 ||| c2 * 2 ^ 8 = c1 * 2 ^ 16 + c2 * 2 ^ 8 :=
    lor_eq_add_of_disjoint 16 _ _ (by omega) (by omega)
  rw [e1, lor_eq_add_of_disjoint 8 _ _ (by omega) (by omega)]

theorem orChain4 (c1 c2 c3 c4 : Nat) (h2 : c2 < 256) (h3 : c3 < 256) (h4 : c4 < 256) :
    (c1 <<< 24) ||| (c2 <<< 16) ||| (c3 <<< 8) ||| c4
      = c1 * 2 ^ 24 + c2 * 2 ^ 16 + c3 * 2 ^ 8 + c4 := by
  simp only [Nat.shiftLeft_eq]
  have e1 : c1 * 2 ^ 24 ||| c2 * 2 ^ 16 = c1 * 2 ^ 24 + c2 * 2 ^ 16 :=
    lor_eq_add_of_disjoint 24 _ _ (by omega) (by omega)
  have e2 : c1 * 2 ^ 24 + c2 * 2 ^ 16 ||| c3 * 2 ^ 8
      = c1 * 2 ^ 24 + c2 * 2 ^ 16 + c3 * 2 ^ 8 :=
    lor_eq_add_of_disjoint 16 _ _ (by omega) (by omega)
  rw [e1, e2, lor_eq_add_of_disjoint 8 _ _ (by omega) (by omega)]

theorem orChain8 (c1 c2 c3 c4 c5 c6 c7 c8 : Nat)
    (h2 : c2 < 256) (h3 : c3 < 256) (h4 : c4 < 256) (h5 : c5 < 256)
    (h6 : c6 < 256) (h7 : c7 < 256) (h8 : c8 < 256) :
    (c1 <<< 56) ||| (c2 <<< 48) ||| (c3 <<< 40) ||| (c4 <<< 32) ||| (c5 <<< 24)
      ||| (c6 <<< 16) ||| (c7 <<< 8) ||| c8
    = c1 * 2 ^ 56 + c2 * 2 ^ 48 + c3 * 2 ^ 40 + c4 * 2 ^ 32 + c5 * 2 ^ 24
      + c6 * 2 ^ 16 + c7 * 2 ^ 8 + c8 := by
  simp only [Nat.shiftLeft_eq]
  have e1 : c1 * 2 ^ 56 ||| c2 * 2 ^ 48 = c1 * 2 ^ 56 + c2 * 2 ^ 48 :=
    lor_eq_add_of_disjoint 56 _ _ (by omega) (by omega)
  have e2 : c1 * 2 ^ 56 + c2 * 2 ^ 48 ||| c3 * 2 ^ 40
      = c1 * 2 ^ 56 + c2 * 2 ^ 48 + c3 * 2 ^ 40 :=
    lor_eq_add_of_disjoint 48 _ _ (by omega) (by omega)
  have e3 : c1 * 2 ^ 56 + c2 * 2 ^ 48 + c3 * 2 ^ 40 ||| c4 * 2 ^ 32
      = c1 * 2 ^ 56 + c2 * 2 ^ 48 + c3 * 2 ^ 40 + c4 * 2 ^ 32 :=
    lor_eq_add_of_disjoint 40 _ _ (by omega) (by omega)
  have e4 : c1 * 2 ^ 56 + c2 * 2 ^ 48 + c3 * 2 ^ 40 + c4 * 2 ^ 32 ||| c5 * 2 ^ 24
      = c1 * 2 ^ 56 + c2 * 2 ^ 48 + c3 * 2 ^ 40 + c4 * 2 ^ 32 + c5 * 2 ^ 24 :=
    lor_eq_add_of_disjoint 32 _ _ (by omega) (by omega)
  have e5 : c1 * 2 ^ 56 + c2 * 2 ^ 48 + c3 * 2 ^ 40 + c4 * 2 ^ 32 + c5 * 2 ^ 24
        ||| c6 * 2 ^ 16
      = c1 * 2 ^ 56 + c2 * 2 ^ 48 + c3 * 2 ^ 40 + c4 * 2 ^ 32 + c5 * 2 ^ 24
        + c6 * 2 ^ 16 :=
    lor_eq_add_of_disjoint 24 _ _ (by omega) (by omega)
  have e6 : c1 * 2 ^ 56 + c2 * 2 ^ 48 + c3 * 2 ^ 40 + c4 * 2 ^ 32 + c5 * 2 ^ 24
        + c6 * 2 ^ 16 ||| c7 * 2 ^ 8
      = c1 * 2 ^ 56 + c2 * 2 ^ 48 + c3 * 2 ^ 40 + c4 * 2 ^ 32 + c5 * 2 ^ 24
        + c6 * 2 ^ 16 + c7 * 2 ^ 8 :=
    lor_eq_add_of_disjoint 16 _ _ (by omega) (by omega)
  rw [e1, e2, e3, e4, e5, e6, lor_eq_add_of_disjoint 8 _ _ (by omega) (by omega)]

theorem readVarint_writeVarintSmall (v : Nat) (hv : v < 2 ^ 63) (rest : List Nat) :
    readVarint (writeVarintSmall v ++ rest) = some (v, rest) := by
  have h63 : v < 9223372036854775808 := by omega
  by_cases h9 : v > 0xffffffff
  · rw [writeVarintSmall, if_pos h9]
    simp only [List.cons_append, List.nil_append]
    simp +decide [readVarint]
    simp only [Nat.shiftRight_eq_div_pow]
    rw [orChain8 _ _ _ _ _ _ _ _ (by omega) (by omega) (by omega) (by omega)
      (by omega) (by omega) (by omega)]
    omega
  · by_cases h5 : v > 0xfffffff
    · rw [writeVarintSmall, if_neg h9, if_pos h5]
      simp only [List.cons_append, List.nil_append]
      simp +decide [readVarint]
      simp only [Nat.shiftRight_eq_div_pow]
      rw [orChain4 _ _ _ _ (by omega) (by omega) (by omega)]
      omega
    · by_cases h4 : v > 0x1fffff
      · rw [writeVarintSmall, if_neg h9, if_neg h5, if_pos h4]
        simp only [List.cons_append, List.nil_append]
        have hx : v >>> 24 % 256 = v / 16777216 := by
          rw [Nat.shiftRight_eq_div_pow]
          have h : (2 : Nat) ^ 24 = 16777216 := by norm_num
          rw [h]
          omega
        have hb0 : 0xe0 ||| v >>> 24 % 256 = 224 + v / 16777216 := by
          rw [hx]
          exact lor_eq_add_of_disjoint 4 224 _ (by norm_num) (by omega)
        rw [hb0]
        have hA : ¬((224 + v / 16777216) &&& 252 = 248) := by
          have := Nat.and_le_left (n := 224 + v / 16777216) (m := 252)
          omega
        have hB : ¬((224 + v / 16777216) &&& 252 = 252) := by
          have := Nat.and_le_left (n := 224 + v / 16777216) (m := 252)
          omega
        have hC : ¬((224 + v / 16777216) &&& 128 = 0) := by
          rw [and128, if_pos (by omega)]; omega
        have hD : ¬((224 + v / 16777216) &&& 64 = 0) := by
          rw [and64, if_pos (by omega)]; omega
        have hE : ¬((224 + v / 16777216) &&& 32 = 0) := by
          rw [and32, if_pos (by omega)]; omega
        have hF : (224 + v / 16777216) &&& 16 = 0 := by
          rw [and16, if_neg (by omega)]
        have hM : (224 + v / 16777216) &&& 15 = v / 16777216 := by
          rw [and15]; omega
        simp +decide [readVarint, hA, hB, hC, hD, hE, hF, hM]
        simp only [Nat.shiftRight_eq_div_pow]
        rw [orChain4 _ _ _ _ (by omega) (by omega) (by omega)]
        omega
      · by_cases h3 : v > 0x3fff
        · rw [writeVarintSmall, if_neg h9, if_neg h5, if_neg h4, if_pos h3]
          simp only [List.cons_append, List.nil_append]
          have hx : v >>> 16 % 256 = v / 65536 := by
            rw [Nat.shiftRight_eq_div_pow]
            have h : (2 : Nat) ^ 16 = 65536 := by norm_num
            rw [h]
            omega
          have hb0 : 0xc0 ||| v >>> 16 % 256 = 192 + v / 65536 := by
            rw [hx]
            exact lor_eq_add_of_disjoint 5 192 _ (by norm_num) (by omega)
          rw [hb0]
          have hA : ¬((192 + v / 65536) &&& 252 = 248) := by
            have := Nat.and_le_left (n := 192 + v / 65536) (m := 252)
            omega
          have hB : ¬((192 + v / 65536) &&& 252 = 252) := by
            have := Nat.and_le_left (n := 192 + v / 65536) (m := 252)
            omega
          have hC : ¬((192 + v / 65536) &&& 128 = 0) := by
            rw [and128, if_pos (by omega)]; omega
          have hD : ¬((192 + v / 65536) &&& 64 = 0) := by
            rw [and64, if_pos (by omega)]; omega
          have hE : (192 + v / 65536) &&& 32 = 0 := by
            rw [and32, if_neg (by omega)]
          have hM : (192 + v / 65536) &&& 31 = v / 65536 := by
            rw [and31]; omega
          simp +decide [readVarint, hA, hB, hC, hD, hE, hM]
          simp only [Nat.shiftRight_eq_div_pow]
          rw [orChain3 _ _ _ (by omega) (by omega)]
          omega
        · by_cases h2 : v > 0x7f
          · rw [writeVarintSmall, if_neg h9, if_neg h5, if_neg h4, if_neg h3, if_pos h2]
            simp only [List.cons_append, List.nil_append]
            have hx : v >>> 8 % 256 = v / 256 := by
              rw [Nat.shiftRight_eq_div_pow]
              have h : (2 : Nat) ^ 8 = 256 := by norm_num
              rw [h]
              omega
            have hb0 : 0x80 ||| v >>> 8 % 256 = 128 + v / 256 := by
              rw [hx]
              exact lor_eq_add_of_disjoint 6 128 _ (by norm_num) (by omega)
            rw [hb0]
            have hA : ¬((128 + v / 256) &&& 252 = 248) := by
              have := Nat.and_le_left (n := 128 + v / 256) (m := 252)
              omega
            have hB : ¬((128 + v / 256) &&& 252 = 252) := by
              have := Nat.and_le_left (n := 128 + v / 256) (m := 252)
              omega
            have hC : ¬((128 + v / 256) &&& 128 = 0) := by
              rw [and128, if_pos (by omega)]; omega
            have hD : (128 + v / 256) &&& 64 = 0 := by
              rw [and64, if_neg (by omega)]
            have hM : (128 + v / 256) &&& 63 = v / 256 := by
              rw [and63]; omega
            simp +decide [readVarint, hA, hB, hC, hD, hM]
            rw [Nat.shiftLeft_eq, lor_eq_add_of_disjoint 8 _ _ (by omega) (by omega)]
            omega
          · rw [writeVarintSmall, if_neg h9, if_neg h5, if_neg h4, if_neg h3, if_neg h2]
            simp only [List.cons_append, List.nil_append]
            have hv' : v % 256 = v := by omega
            rw [hv']
            have hA : ¬(v &&& 252 = 248) := by
              have := Nat.and_le_left (n := v) (m := 252)
              omega
            have hB : ¬(v &&& 252 = 252) := by
              have := Nat.and_le_left (n := v) (m := 252)
              omega
            have hC : v &&& 128 = 0 := by
              rw [and128, if_neg (by omega)]
            have hM : v &&& 127 = v := by
              rw [and127]; omega
            simp +decide [readVarint, hA, hB, hC, hM]

theorem readVarint_writeVarint (v : Nat) (hv : v < 2 ^ 64) (rest : List Nat) :
    readVarint (writeVarint v ++ rest) = some (v, rest) := by
  have h64 : v < 18446744073709551616 := by omega
  by_cases h1 : v &&& 0xfffffffffffffffc = 0xfffffffffffffffc
  · have hv4 : 0xfffffffffffffffc ≤ v := by
      have := Nat.and_le_left (n := v) (m := 0xfffffffffffffffc)
      omega
    have hv4' : v = 18446744073709551612 ∨ v = 18446744073709551613
        ∨ v = 18446744073709551614 ∨ v = 18446744073709551615 := by omega
    rcases hv4' with h | h | h | h <;> subst h <;>
      simp +decide [writeVarint, writeVarintSmall, readVarint, u64Not]
  · by_cases h2 : v &&& 0x8000000000000000 = 0x8000000000000000
    · have hv63 : 9223372036854775808 ≤ v := by
        by_contra hlt
        push_neg at hlt
        have h' := and_two_pow_div v 63
        norm_num at h'
        rw [h', if_neg (by omega)] at h2
        omega
      rw [writeVarint, if_neg h1, if_pos h2]
      have hnot63 : u64Not v < 2 ^ 63 := by
        have h' : u64Not v = 18446744073709551615 - v := rfl
        omega
      simp only [List.cons_append]
      simp +decide [readVarint]
      rw [readVarint_writeVarintSmall _ hnot63]
      have h' : u64Not (u64Not v) = v := by
        have e1 : u64Not v = 18446744073709551615 - v := rfl
        have e2 : u64Not (u64Not v) = 18446744073709551615 - u64Not v := rfl
        omega
      simp [h']
    · have hv63 : v < 2 ^ 63 := by
        by_contra hge
        push_neg at hge
        have h' := and_two_pow_div v 63
        norm_num at h'
        exact h2 (by rw [h', if_pos (by omega)])
      rw [writeVarint, if_neg h1, if_neg h2]
      exact readVarint_writeVarintSmall v hv63 rest

theorem lor_byte_lt (c x : Nat) (hc : c < 256) (hx : x < 256) : c ||| x < 256 := by
  have h := Nat.or_lt_two_pow (x := c) (y := x) (n := 8) (by omega) (by omega)
  omega

theorem writeVarintSmall_mem_lt (v : Nat) : ∀ b ∈ writeVarintSmall v, b < 256 := by
  intro b hb
  rw [writeVarintSmall] at hb
  split_ifs at hb <;>
    simp only [List.mem_cons, List.mem_singleton, List.not_mem_nil, or_false] at hb
  · rcases hb with rfl | rfl | rfl | rfl | rfl | rfl | rfl | rfl | rfl <;> omega
  · rcases hb with rfl | rfl | rfl | rfl | rfl <;> omega
  · rcases hb with rfl | rfl | rfl | rfl <;>
      first
        | omega
        | exact lor_byte_lt _ _ (by norm_num) (Nat.mod_lt _ (by norm_num))
  · rcases hb with rfl | rfl | rfl <;>
      first
        | omega
        | exact lor_byte_lt _ _ (by norm_num) (Nat.mod_lt _ (by norm_num))
  · rcases hb with rfl | rfl <;>
      first
        | omega
        | exact lor_byte_lt _ _ (by norm_num) (Nat.mod_lt _ (by norm_num))
  · rcases hb with rfl
    omega

theorem writeVarint_mem_lt (v : Nat) : ∀ b ∈ writeVarint v, b < 256 := by
  intro b hb
  rw [writeVarint] at hb
  split_ifs at hb
  · simp only [List.mem_singleton] at hb
    subst hb
    exact lor_byte_lt _ _ (by norm_num) (Nat.mod_lt _ (by norm_num))
  · simp only [List.mem_cons] at hb
    rcases hb with rfl | hb
    · norm_num
    · exact writeVarintSmall_mem_lt _ b hb
  · exact writeVarintSmall_mem_lt _ b hb

/-- C6: for every `u64` value `v`, reading a varint from the bytes produced
by writing `v` as a varint returns exactly `v` (`read(write(v)) == v`),
consuming the whole buffer.  The boundary values named by the claim are
instances of this universal statement (see the witness). -/
theorem c6_varint_roundtrip (v : Nat) (hv : v < 2 ^ 64) :
    readVarint (writeVarint v) = some (v, []) := by
  have h := readVarint_writeVarint v hv []
  simpa using h

/-- Witness for C6 at the boundary values listed in the claim. -/
theorem c6_varint_roundtrip_witness :
    readVarint (writeVarint 0) = some (0, [])
    ∧ readVarint (writeVarint 0x7f) = some (0x7f, [])
    ∧ readVarint (writeVarint 0x80) = some (0x80, [])
    ∧ readVarint (writeVarint 0x3fff) = some (0x3fff, [])
    ∧ readVarint (writeVarint 0x4000) = some (0x4000, [])
    ∧ readVarint (writeVarint 0x1fffff) = some (0x1fffff, [])
    ∧ readVarint (writeVarint 0xfffffff) = some (0xfffffff, [])
    ∧ readVarint (writeVarint 0xffffffff) = some (0xffffffff, [])
    ∧ readVarint (writeVarint (1 <<< 63)) = some (1 <<< 63, []) :=
  ⟨c6_varint_roundtrip 0 (by decide), c6_varint_roundtrip 0x7f (by decide),
    c6_varint_roundtrip 0x80 (by decide), c6_varint_roundtrip 0x3fff (by decide),
    c6_varint_roundtrip 0x4000 (by decide), c6_varint_roundtrip 0x1fffff (by decide),
    c6_varint_roundtrip 0xfffffff (by decide), c6_varint_roundtrip 0xffffffff (by decide),
    c6_varint_roundtrip (1 <<< 63) (by decide)⟩

/-! ## Voice frame codec (`src/voice.rs`)

A `VoicePacket` is either a `Ping` or an `Audio` packet.  The direction
(`Serverbound` / `Clientbound`) only decides whether a varint session id
is read and written after the header byte, so it is modelled as a flag
and the session id as an `Option Nat` (`none` for server-bound packets).
`DecryptError` follows `src/error.rs`: short reads through the cursor
surface as `io` (converted from `io::Error`), the explicit frame-length
checks return `eof`. -/

inductive DecryptError where
  | io
  | eof
  | repeat_
  | late
  | mac
deriving DecidableEq

inductive Dir where
  | serverbound
  | clientbound
deriving DecidableEq

inductive VoicePayload where
  | celtAlpha (frames : List (List Nat))
  | speex (frames : List (List Nat))
  | celtBeta (frames : List (List Nat))
  | opus (frame : List Nat) (termination : Bool)
deriving DecidableEq

inductive VoicePacketM where
  | ping (timestamp : Nat)
  | audio (target : Nat) (sessionId : Option Nat) (seqNum : Nat)
      (payload : VoicePayload) (positionInfo : Option (List Nat))
deriving DecidableEq

instance {ε α : Type} [DecidableEq ε] [DecidableEq α] : DecidableEq (Except ε α) :=
  fun a b =>
    match a, b with
    | .ok x, .ok y =>
      match decEq x y with
      | isTrue h => isTrue (by rw [h])
      | isFalse h => isFalse (by intro hc; cases hc; exact h rfl)
    | .error x, .error y =>
      match decEq x y with
      | isTrue h => isTrue (by rw [h])
      | isFalse h => isFalse (by intro hc; cases hc; exact h rfl)
    | .ok _, .error _ => isFalse (by intro hc; cases hc)
    | .error _, .ok _ => isFalse (by intro hc; cases hc)

/-- Frame sequence reader for CELT/Speex payloads: each frame is prefixed
by one byte whose high bit means "more frames follow" and whose low 7
bits are the frame length (`src/voice.rs` lines 141-166).  The `fuel`
argument makes the loop structurally recursive; it is called with
`buf.length + 1`, which the loop (consuming at least one byte per
iteration) can never exhaust. -/
def readFrames : Nat → List Nat → Option (List (List Nat) × List Nat)
  | 0, _ => none
  | _ + 1, [] => none
  | fuel + 1, h :: t =>
    let len := h &&& 0x7f
    if t.length < len then none
    else if h &&& 0x80 = 0x80 then
      match readFrames fuel (t.drop len) with
      | none => none
      | some (fs, r) => some (t.take len :: fs, r)
    else some ([t.take len], t.drop len)

def decodeVoicePacket (dir : Dir) (buf : List Nat) : Except DecryptError VoicePacketM :=
  match buf with
  | [] => .error .io
  | header :: r =>
    let kind := header >>> 5
    let target := header &&& 0x1f
    if kind = 1 then
      match readVarint r with
      | none => .error .io
      | some (timestamp, _) => .ok (.ping timestamp)
    else
      let sessionParse : Option (Option Nat × List Nat) :=
        match dir with
        | .serverbound => some (none, r)
        | .clientbound =>
          match readVarint r with
          | none => none
          | some (s, r1) => some (some (s % 2 ^ 32), r1)
      match sessionParse with
      | none => .error .io
      | some (sessionId, r1) =>
        match readVarint r1 with
        | none => .error .io
        | some (seqNum, r2) =>
          let payloadParse : Except DecryptError (VoicePayload × List Nat) :=
            if kind = 0 ∨ kind = 2 ∨ kind = 3 then
              match readFrames (r2.length + 1) r2 with
              | none => .error .eof
              | some (frames, r3) =>
                if kind = 0 then .ok (.celtAlpha frames, r3)
                else if kind = 2 then .ok (.speex frames, r3)
                else .ok (.celtBeta frames, r3)
            else if kind = 4 then
              match readVarint r2 with
              | none => .error .io
              | some (oheader, r3) =>
                let terminationBit := oheader &&& 0x2000 = 0x2000
                let len := oheader &&& 0xffffffffffffdfff
                if r3.length < len then .error .eof
                else .ok (.opus (r3.take len) terminationBit, r3.drop len)
            else .error .io
          match payloadParse with
          | .error e => .error e
          | .ok (payload, r3) =>
            let positionInfo := if r3.isEmpty then none else some r3
            .ok (.audio target sessionId seqNum payload positionInfo)

def encodeFrames : List (List Nat) → List Nat
  | [] => []
  | [f] => (f.length % 256) :: f
  | f :: g :: gs => (0x80 ||| f.length % 256) :: (f ++ encodeFrames (g :: gs))

def encodeVoicePacket (dir : Dir) (p : VoicePacketM) : List Nat :=
  match p with
  | .ping timestamp => 0x20 :: writeVarint timestamp
  | .audio target sessionId seqNum payload positionInfo =>
    let kind : Nat :=
      match payload with
      | .celtAlpha _ => 0
      | .speex _ => 2
      | .celtBeta _ => 3
      | .opus _ _ => 4
    let sessionBytes :=
      match dir with
      | .serverbound => []
      | .clientbound => writeVarint (sessionId.getD 0)
    let payloadBytes :=
      match payload with
      | .celtAlpha frames => encodeFrames frames
      | .speex frames => encodeFrames frames
      | .celtBeta frames => encodeFrames frames
      | .opus frame t => writeVarint ((if t then 0x2000 else 0) ||| frame.length) ++ frame
    let posBytes := positionInfo.getD []
    ((kind <<< 5) ||| (target &&& 0x1f)) :: (sessionBytes ++ writeVarint seqNum
      ++ payloadBytes ++ posBytes)

/-- Wire well-formedness of a voice packet: the conditions under which the
encoder is injective (frame lengths fit their 7-bit length prefixes, the
Opus length does not collide with the end-of-transmission bit 13, the
session id is present exactly for client-bound packets and fits `u32`,
varints fit `u64`, a present `position_info` is non-empty, and all
payload bytes are bytes). -/
def wfVoicePacket (dir : Dir) : VoicePacketM → Bool
  | .ping timestamp => timestamp < 2 ^ 64
  | .audio target sessionId seqNum payload positionInfo =>
    decide (target < 32) &&
    (match dir, sessionId with
     | .serverbound, none => true
     | .clientbound, some s => decide (s < 2 ^ 32)
     | _, _ => false) &&
    decide (seqNum < 2 ^ 64) &&
    (match payload with
     | .celtAlpha frames | .speex frames | .celtBeta frames =>
       !frames.isEmpty
         && frames.all (fun f => decide (f.length < 128) && f.all (fun b => decide (b < 256)))
     | .opus frame _ =>
       decide (frame.length &&& 0x2000 = 0) && decide (frame.length < 2 ^ 13)
         && frame.all (fun b => decide (b < 256))) &&
    (match positionInfo with
     | none => true
     | some b => !b.isEmpty && b.all (fun x => decide (x < 256)))

theorem and_of_lt_two_pow (x m k : Nat) (hx : x < 2 ^ k) :
    x &&& m = x &&& (m % 2 ^ k) := by
  apply Nat.eq_of_testBit_eq
  intro j
  rw [Nat.testBit_land, Nat.testBit_land, Nat.testBit_mod_two_pow]
  by_cases hj : j < k
  · simp [hj]
  · have hb : x.testBit j = false :=
      Nat.testBit_lt_two_pow
        (lt_of_lt_of_le hx (Nat.pow_le_pow_right (by norm_num) (by omega)))
    simp [hb, hj]

/-- Extracting the Opus end-of-transmission bit: `(t + len) & 0x2000 = t`
when `t` is `0` or `0x2000` and `len` fits below bit 13. -/
theorem and_2000_of_add (t len : Nat) (ht : t = 0 ∨ t = 0x2000) (hlen : len < 2 ^ 13) :
    (t + len) &&& 0x2000 = t := by
  have h := and_two_pow_div (t + len) 13
  norm_num at h
  rcases ht with rfl | rfl
  · rw [h, if_neg (by omega)]
  · rw [h, if_pos (by omega)]

/-- Extracting the Opus frame length: masking with `!0x2000` (as `u64`)
recovers `len` when `t` is `0` or `0x2000` and `len` fits below bit 13. -/
theorem and_dfff_of_add (t len : Nat) (ht : t = 0 ∨ t = 0x2000) (hlen : len < 2 ^ 13) :
    (t + len) &&& 0xffffffffffffdfff = len := by
  have hx : t + len < 2 ^ 14 := by rcases ht with rfl | rfl <;> omega
  rw [and_of_lt_two_pow _ _ 14 hx]
  norm_num
  have h := Nat.and_pow_two_sub_one_eq_mod (t + len) 13
  norm_num at h
  rw [h]
  rcases ht with rfl | rfl <;> omega

theorem readFrames_encodeFrames (fs : List (List Nat)) :
    ∀ (rest : List Nat) (fuel : Nat), fs ≠ [] →
    (∀ f ∈ fs, f.length < 128) →
    (encodeFrames fs ++ rest).length + 1 ≤ fuel →
    readFrames fuel (encodeFrames fs ++ rest) = some (fs, rest) := by
  induction fs with
  | nil => intro rest fuel hne _ _; exact absurd rfl hne
  | cons f fs ih =>
    intro rest fuel _ hwf hfuel
    have hflen : f.length < 128 := hwf f (by simp)
    have hmod : f.length % 256 = f.length := by omega
    cases fs with
    | nil =>
      rw [encodeFrames] at hfuel ⊢
      rw [hmod] at hfuel ⊢
      simp only [List.cons_append, List.length_cons, List.length_append] at hfuel
      obtain ⟨fuel', rfl⟩ : ∃ n, fuel = n + 1 := ⟨fuel - 1, by omega⟩
      simp only [readFrames, List.append_eq]
      have hm : f.length &&& 0x7f = f.length := by rw [and127]; omega
      have hcont : ¬(f.length &&& 0x80 = 0x80) := by
        rw [and128, if_neg (by omega)]; omega
      rw [hm, if_neg (by simp only [List.length_append]; omega), if_neg hcont,
        List.take_left, List.drop_left]
    | cons g gs =>
      rw [encodeFrames] at hfuel ⊢
      rw [hmod] at hfuel ⊢
      simp only [List.cons_append, List.length_cons, List.length_append] at hfuel
      obtain ⟨fuel', rfl⟩ : ∃ n, fuel = n + 1 := ⟨fuel - 1, by omega⟩
      simp only [readFrames, List.append_eq]
      have hb0 : (0x80 : Nat) ||| f.length = 128 + f.length :=
        lor_eq_add_of_disjoint 7 128 f.length (by norm_num) (by omega)
      have hm : (128 + f.length) &&& 0x7f = f.length := by rw [and127]; omega
      have hcont : (128 + f.length) &&& 0x80 = 0x80 := by
        rw [and128, if_pos (by omega)]
      rw [hb0, hm, if_neg (by simp only [List.length_append]; omega), hcont, if_pos rfl]
      rw [List.append_assoc, List.take_left, List.drop_left]
      rw [ih rest fuel' (by simp) (fun x hx => hwf x (by simp [hx])) (by
        simp only [List.length_append]
        omega)]

theorem encodeFrames_mem_lt (fs : List (List Nat))
    (hwf : ∀ f ∈ fs, ∀ b ∈ f, b < 256) : ∀ b ∈ encodeFrames fs, b < 256 := by
  induction fs with
  | nil => simp [encodeFrames]
  | cons f fs ih =>
    cases fs with
    | nil =>
      intro b hb
      rw [encodeFrames] at hb
      rcases List.mem_cons.mp hb with rfl | hb
      · omega
      · exact hwf f (by simp) b hb
    | cons g gs =>
      intro b hb
      rw [encodeFrames] at hb
      rcases List.mem_cons.mp hb with rfl | hb
      · exact lor_byte_lt _ _ (by norm_num) (Nat.mod_lt _ (by norm_num))
      · rcases List.mem_append.mp hb with hb | hb
        · exact hwf f (by simp) b hb
        · exact ih (fun x hx => hwf x (by simp [hx])) b hb

theorem encodeVoicePacket_mem_lt (dir : Dir) (p : VoicePacketM)
    (hwf : wfVoicePacket dir p = true) : ∀ b ∈ encodeVoicePacket dir p, b < 256 := by
  cases p with
  | ping timestamp =>
    intro b hb
    simp only [encodeVoicePacket] at hb
    rcases List.mem_cons.mp hb with rfl | hb
    · norm_num
    · exact writeVarint_mem_lt _ b hb
  | audio target sessionId seqNum payload positionInfo =>
    simp only [wfVoicePacket, Bool.and_eq_true, decide_eq_true_eq] at hwf
    obtain ⟨⟨⟨⟨htarget, hsess⟩, hseq⟩, hpayload⟩, hpos⟩ := hwf
    intro b hb
    simp only [encodeVoicePacket] at hb
    rcases List.mem_cons.mp hb with rfl | hb
    · have h2 : target &&& 0x1f < 256 := by
        have := Nat.and_le_right (n := target) (m := 0x1f)
        omega
      cases payload <;> dsimp only <;> exact lor_byte_lt _ _ (by decide) h2
    · rcases List.mem_append.mp hb with hb | hb
      · rcases List.mem_append.mp hb with hb | hb
        · rcases List.mem_append.mp hb with hb | hb
          · cases dir with
            | serverbound => simp at hb
            | clientbound => exact writeVarint_mem_lt _ b hb
          · exact writeVarint_mem_lt _ b hb
        · cases payload with
          | celtAlpha frames =>
            simp only [Bool.and_eq_true, List.all_eq_true, decide_eq_true_eq] at hpayload
            exact encodeFrames_mem_lt frames
              (fun f hf x hx => (hpayload.2 f hf).2 x hx) b hb
          | speex frames =>
            simp only [Bool.and_eq_true, List.all_eq_true, decide_eq_true_eq] at hpayload
            exact encodeFrames_mem_lt frames
              (fun f hf x hx => (hpayload.2 f hf).2 x hx) b hb
          | celtBeta frames =>
            simp only [Bool.and_eq_true, List.all_eq_true, decide_eq_true_eq] at hpayload
            exact encodeFrames_mem_lt frames
              (fun f hf x hx => (hpayload.2 f hf).2 x hx) b hb
          | opus frame t =>
            simp only [Bool.and_eq_true, List.all_eq_true, decide_eq_true_eq] at hpayload
            rcases List.mem_append.mp hb with hb | hb
            · exact writeVarint_mem_lt _ b hb
            · exact hpayload.2 b hb
      · cases positionInfo with
        | none => simp at hb
        | some bs =>
          simp only [Bool.and_eq_true, List.all_eq_true, decide_eq_true_eq] at hpos
          exact hpos.2 b hb

theorem decodeVoicePacket_encodeVoicePacket (dir : Dir) (p : VoicePacketM)
    (hwf : wfVoicePacket dir p = true) :
    decodeVoicePacket dir (encodeVoicePacket dir p) = .ok p := by
  cases p with
  | ping timestamp =>
    have hts : timestamp < 2 ^ 64 := by simpa [wfVoicePacket] using hwf
    have h := readVarint_writeVarint timestamp hts []
    rw [List.append_nil] at h
    simp +decide [encodeVoicePacket, decodeVoicePacket, h]
  | audio target sessionId seqNum payload positionInfo =>
    simp only [wfVoicePacket, Bool.and_eq_true, decide_eq_true_eq] at hwf
    obtain ⟨⟨⟨⟨htarget, hsess⟩, hseq⟩, hpayload⟩, hpos⟩ := hwf
    have htg31 : target &&& 0x1f = target := by rw [and31]; omega
    have hposFinal :
        (if positionInfo.getD [] = ([] : List Nat) then none
          else some (positionInfo.getD [])) = positionInfo := by
      cases positionInfo with
      | none => simp
      | some bs =>
        simp only [Bool.and_eq_true, Bool.not_eq_true', List.all_eq_true,
          decide_eq_true_eq] at hpos
        have hne : bs ≠ [] := by
          intro h
          rw [h] at hpos
          simp at hpos
        simp [hne]
    cases dir with
    | serverbound =>
      have hsid : sessionId = none := by
        cases sessionId
        · rfl
        · simp at hsess
      subst hsid
      cases payload with
      | celtAlpha frames =>
        simp only [Bool.and_eq_true, List.all_eq_true, decide_eq_true_eq] at hpayload
        obtain ⟨hfne, hflen⟩ := hpayload
        have hfne' : frames ≠ [] := by
          cases frames
          · simp at hfne
          · simp
        have hseq' := readVarint_writeVarint seqNum hseq
          (encodeFrames frames ++ positionInfo.getD [])
        have hframes := readFrames_encodeFrames frames (positionInfo.getD [])
          ((encodeFrames frames ++ positionInfo.getD []).length + 1) hfne'
          (fun f hf => (hflen f hf).1) (le_refl _)
        simp only [List.length_append] at hframes
        have hhdr : ((0 : Nat) <<< 5) ||| (target &&& 0x1f) = target := by
          rw [htg31]; simp
        have hk : target >>> 5 = 0 := by
          rw [Nat.shiftRight_eq_div_pow]
          omega
        simp only [encodeVoicePacket]
        rw [hhdr]
        simp only [List.nil_append, List.append_assoc]
        simp +decide [decodeVoicePacket, hk, htg31, hseq', hframes, hposFinal]
      | speex frames =>
        simp only [Bool.and_eq_true, List.all_eq_true, decide_eq_true_eq] at hpayload
        obtain ⟨hfne, hflen⟩ := hpayload
        have hfne' : frames ≠ [] := by
          cases frames
          · simp at hfne
          · simp
        have hseq' := readVarint_writeVarint seqNum hseq
          (encodeFrames frames ++ positionInfo.getD [])
        have hframes := readFrames_encodeFrames frames (positionInfo.getD [])
          ((encodeFrames frames ++ positionInfo.getD []).length + 1) hfne'
          (fun f hf => (hflen f hf).1) (le_refl _)
        simp only [List.length_append] at hframes
        have hhdr : ((2 : Nat) <<< 5) ||| (target &&& 0x1f) = 64 + target := by
          rw [htg31]
          exact lor_eq_add_of_disjoint 5 _ _ (by decide) (by omega)
        have hk : (64 + target) >>> 5 = 2 := by
          rw [Nat.shiftRight_eq_div_pow]
          omega
        have htg : (64 + target) &&& 0x1f = target := by rw [and31]; omega
        simp only [encodeVoicePacket]
        rw [hhdr]
        simp only [List.nil_append, List.append_assoc]
        simp +decide [decodeVoicePacket, hk, htg, hseq', hframes, hposFinal]
      | celtBeta frames =>
        simp only [Bool.and_eq_true, List.all_eq_true, decide_eq_true_eq] at hpayload
        obtain ⟨hfne, hflen⟩ := hpayload
        have hfne' : frames ≠ [] := by
          cases frames
          · simp at hfne
          · simp
        have hseq' := readVarint_writeVarint seqNum hseq
          (encodeFrames frames ++ positionInfo.getD [])
        have hframes := readFrames_encodeFrames frames (positionInfo.getD [])
          ((encodeFrames frames ++ positionInfo.getD []).length + 1) hfne'
          (fun f hf => (hflen f hf).1) (le_refl _)
        simp only [List.length_append] at hframes
        have hhdr : ((3 : Nat) <<< 5) ||| (target &&& 0x1f) = 96 + target := by
          rw [htg31]
          exact lor_eq_add_of_disjoint 5 _ _ (by decide) (by omega)
        have hk : (96 + target) >>> 5 = 3 := by
          rw [Nat.shiftRight_eq_div_pow]
          omega
        have htg : (96 + target) &&& 0x1f = target := by rw [and31]; omega
        simp only [encodeVoicePacket]
        rw [hhdr]
        simp only [List.nil_append, List.append_assoc]
        simp +decide [decodeVoicePacket, hk, htg, hseq', hframes, hposFinal]
      | opus frame t =>
        simp only [Bool.and_eq_true, List.all_eq_true, decide_eq_true_eq] at hpayload
        obtain ⟨⟨hbit, h13⟩, hbytes⟩ := hpayload
        have hhdr : ((4 : Nat) <<< 5) ||| (target &&& 0x1f) = 128 + target := by
          rw [htg31]
          exact lor_eq_add_of_disjoint 5 _ _ (by decide) (by omega)
        have hk : (128 + target) >>> 5 = 4 := by
          rw [Nat.shiftRight_eq_div_pow]
          omega
        have htg : (128 + target) &&& 0x1f = target := by rw [and31]; omega
        have hlen3 : ¬((frame ++ positionInfo.getD []).length < frame.length) := by
          simp only [List.length_append]
          omega
        cases t with
        | false =>
          have hoh : ((0 : Nat) ||| frame.length) = frame.length := by simp
          have hseq' := readVarint_writeVarint seqNum hseq
            (writeVarint frame.length ++ (frame ++ positionInfo.getD []))
          have hohrt := readVarint_writeVarint frame.length (by omega)
            (frame ++ positionInfo.getD [])
          have hterm : ¬(frame.length &&& 0x2000 = 0x2000) := by
            rw [hbit]
            norm_num
          have hdfff : frame.length &&& 0xffffffffffffdfff = frame.length := by
            have h := and_dfff_of_add 0 frame.length (Or.inl rfl) h13
            simpa using h
          simp only [encodeVoicePacket]
          rw [hhdr, if_neg (by simp)]
          rw [hoh]
          simp only [List.nil_append, List.append_assoc]
          simp +decide [decodeVoicePacket, hk, htg, hseq', hohrt, hterm, hdfff,
            hlen3, List.take_left, List.drop_left, hposFinal]
        | true =>
          have hoh : ((0x2000 : Nat) ||| frame.length) = 0x2000 + frame.length :=
            lor_eq_add_of_disjoint 13 _ _ (by decide) (by omega)
          have hseq' := readVarint_writeVarint seqNum hseq
            (writeVarint (0x2000 + frame.length) ++ (frame ++ positionInfo.getD []))
          have hohrt := readVarint_writeVarint (0x2000 + frame.length) (by omega)
            (frame ++ positionInfo.getD [])
          have hterm : (0x2000 + frame.length) &&& 0x2000 = 0x2000 :=
            and_2000_of_add 0x2000 frame.length (Or.inr rfl) h13
          have hdfff : (0x2000 + frame.length) &&& 0xffffffffffffdfff = frame.length :=
            and_dfff_of_add 0x2000 frame.length (Or.inr rfl) h13
          simp only [encodeVoicePacket]
          rw [hhdr, if_pos trivial]
          rw [hoh]
          simp only [List.nil_append, List.append_assoc]
          simp +decide [decodeVoicePacket, hk, htg, hseq', hohrt, hterm, hdfff,
            hlen3, List.take_left, List.drop_left, hposFinal]
    | clientbound =>
      obtain ⟨s, rfl, hs⟩ : ∃ s, sessionId = some s ∧ s < 2 ^ 32 := by
        cases sessionId with
        | none => simp at hsess
        | some s =>
          simp only [decide_eq_true_eq] at hsess
          exact ⟨s, rfl, hsess⟩
      have hsmod : s % 2 ^ 32 = s := by omega
      have hsmod' : s % 4294967296 = s := by omega
      have hs64 : s < 2 ^ 64 := by omega
      cases payload with
      | celtAlpha frames =>
        simp only [Bool.and_eq_true, List.all_eq_true, decide_eq_true_eq] at hpayload
        obtain ⟨hfne, hflen⟩ := hpayload
        have hfne' : frames ≠ [] := by
          cases frames
          · simp at hfne
          · simp
        have hsess' := readVarint_writeVarint s hs64
          (writeVarint seqNum ++ (encodeFrames frames ++ positionInfo.getD []))
        have hseq' := readVarint_writeVarint seqNum hseq
          (encodeFrames frames ++ positionInfo.getD [])
        have hframes := readFrames_encodeFrames frames (positionInfo.getD [])
          ((encodeFrames frames ++ positionInfo.getD []).length + 1) hfne'
          (fun f hf => (hflen f hf).1) (le_refl _)
        simp only [List.length_append] at hframes
        have hhdr : ((0 : Nat) <<< 5) ||| (target &&& 0x1f) = target := by
          rw [htg31]; simp
        have hk : target >>> 5 = 0 := by
          rw [Nat.shiftRight_eq_div_pow]
          omega
        simp only [encodeVoicePacket]
        rw [hhdr]
        simp only [List.append_assoc]
        simp +decide [decodeVoicePacket, hk, htg31, hsess', hseq', hframes,
          hsmod, hsmod', hposFinal]
      | speex frames =>
        simp only [Bool.and_eq_true, List.all_eq_true, decide_eq_true_eq] at hpayload
        obtain ⟨hfne, hflen⟩ := hpayload
        have hfne' : frames ≠ [] := by
          cases frames
          · simp at hfne
          · simp
        have hsess' := readVarint_writeVarint s hs64
          (writeVarint seqNum ++ (encodeFrames frames ++ positionInfo.getD []))
        have hseq' := readVarint_writeVarint seqNum hseq
          (encodeFrames frames ++ positionInfo.getD [])
        have hframes := readFrames_encodeFrames frames (positionInfo.getD [])
          ((encodeFrames frames ++ positionInfo.getD []).length + 1) hfne'
          (fun f hf => (hflen f hf).1) (le_refl _)
        simp only [List.length_append] at hframes
        have hhdr : ((2 : Nat) <<< 5) ||| (target &&& 0x1f) = 64 + target := by
          rw [htg31]
          exact lor_eq_add_of_disjoint 5 _ _ (by decide) (by omega)
        have hk : (64 + target) >>> 5 = 2 := by
          rw [Nat.shiftRight_eq_div_pow]
          omega
        have htg : (64 + target) &&& 0x1f = target := by rw [and31]; omega
        simp only [encodeVoicePacket]
        rw [hhdr]
        simp only [List.append_assoc]
        simp +decide [decodeVoicePacket, hk, htg, hsess', hseq', hframes,
          hsmod, hsmod', hposFinal]
      | celtBeta frames =>
        simp only [Bool.and_eq_true, List.all_eq_true, decide_eq_true_eq] at hpayload
        obtain ⟨hfne, hflen⟩ := hpayload
        have hfne' : frames ≠ [] := by
          cases frames
          · simp at hfne
          · simp
        have hsess' := readVarint_writeVarint s hs64
          (writeVarint seqNum ++ (encodeFrames frames ++ positionInfo.getD []))
        have hseq' := readVarint_writeVarint seqNum hseq
          (encodeFrames frames ++ positionInfo.getD [])
        have hframes := readFrames_encodeFrames frames (positionInfo.getD [])
          ((encodeFrames frames ++ positionInfo.getD []).length + 1) hfne'
          (fun f hf => (hflen f hf).1) (le_refl _)
        simp only [List.length_append] at hframes
        have hhdr : ((3 : Nat) <<< 5) ||| (target &&& 0x1f) = 96 + target := by
          rw [htg31]
          exact lor_eq_add_of_disjoint 5 _ _ (by decide) (by omega)
        have hk : (96 + target) >>> 5 = 3 := by
          rw [Nat.shiftRight_eq_div_pow]
          omega
        have htg : (96 + target) &&& 0x1f = target := by rw [and31]; omega
        simp only [encodeVoicePacket]
        rw [hhdr]
        simp only [List.append_assoc]
        simp +decide [decodeVoicePacket, hk, htg, hsess', hseq', hframes,
          hsmod, hsmod', hposFinal]
      | opus frame t =>
        simp only [Bool.and_eq_true, List.all_eq_true, decide_eq_true_eq] at hpayload
        obtain ⟨⟨hbit, h13⟩, hbytes⟩ := hpayload
        have hhdr : ((4 : Nat) <<< 5) ||| (target &&& 0x1f) = 128 + target := by
          rw [htg31]
          exact lor_eq_add_of_disjoint 5 _ _ (by decide) (by omega)
        have hk : (128 + target) >>> 5 = 4 := by
          rw [Nat.shiftRight_eq_div_pow]
          omega
        have htg : (128 + target) &&& 0x1f = target := by rw [and31]; omega
        have hlen3 : ¬((frame ++ positionInfo.getD []).length < frame.length) := by
          simp only [List.length_append]
          omega
        cases t with
        | false =>
          have hoh : ((0 : Nat) ||| frame.length) = frame.length := by simp
          have hsess' := readVarint_writeVarint s hs64
            (writeVarint seqNum ++ (writeVarint frame.length
              ++ (frame ++ positionInfo.getD [])))
          have hseq' := readVarint_writeVarint seqNum hseq
            (writeVarint frame.length ++ (frame ++ positionInfo.getD []))
          have hohrt := readVarint_writeVarint frame.length (by omega)
            (frame ++ positionInfo.getD [])
          have hterm : ¬(frame.length &&& 0x2000 = 0x2000) := by
            rw [hbit]
            norm_num
          have hdfff : frame.length &&& 0xffffffffffffdfff = frame.length := by
            have h := and_dfff_of_add 0 frame.length (Or.inl rfl) h13
            simpa using h
          simp only [encodeVoicePacket]
          rw [hhdr, if_neg (by simp)]
          rw [hoh]
          simp only [List.append_assoc]
          simp +decide [decodeVoicePacket, hk, htg, hsess', hseq', hohrt, hterm,
            hdfff, hlen3, hsmod, hsmod', List.take_left, List.drop_left, hposFinal]
        | true =>
          have hoh : ((0x2000 : Nat) ||| frame.length) = 0x2000 + frame.length :=
            lor_eq_add_of_disjoint 13 _ _ (by decide) (by omega)
          have hsess' := readVarint_writeVarint s hs64
            (writeVarint seqNum ++ (writeVarint (0x2000 + frame.length)
              ++ (frame ++ positionInfo.getD [])))
          have hseq' := readVarint_writeVarint seqNum hseq
            (writeVarint (0x2000 + frame.length) ++ (frame ++ positionInfo.getD []))
          have hohrt := readVarint_writeVarint (0x2000 + frame.length) (by omega)
            (frame ++ positionInfo.getD [])
          have hterm : (0x2000 + frame.length) &&& 0x2000 = 0x2000 :=
            and_2000_of_add 0x2000 frame.length (Or.inr rfl) h13
          have hdfff : (0x2000 + frame.length) &&& 0xffffffffffffdfff = frame.length :=
            and_dfff_of_add 0x2000 frame.length (Or.inr rfl) h13
          simp only [encodeVoicePacket]
          rw [hhdr, if_pos trivial]
          rw [hoh]
          simp only [List.append_assoc]
          simp +decide [decodeVoicePacket, hk, htg, hsess', hseq', hohrt, hterm,
            hdfff, hlen3, hsmod, hsmod', List.take_left, List.drop_left, hposFinal]

/-! ## Crypt channel (`src/crypt.rs`)

OCB-AES128 with a 128-bit rolling nonce.  The AES-128 block cipher comes
from the external `aes` crate, not from this repository, so it is a
parameter `aesE` (with inverse `aesD`): an arbitrary permutation pair on
`Nat` values below `2 ^ 128`, in the big-endian value convention of
`aes_encrypt` / `aes_decrypt` (`u128::from_be_bytes` of the processed
block).  `bswap128` models `u128::to_be()` on a little-endian host: the
byte swap applied to the nonce before it enters the cipher.  Buffers are
`List Nat` byte strings; the fuel argument of the block loops equals the
buffer length and makes them structurally recursive (the loop consumes
sixteen bytes per step, so the fuel can never be exhausted). -/

def s2 (block : Nat) : Nat :=
  let rot := ((block <<< 1) % 2 ^ 128) ||| (block >>> 127)
  let carry := rot &&& 1
  rot ^^^ (carry * 0x86)

def bswap128 (n : Nat) : Nat := bytesToNatBE (natToBytesBE 16 n).reverse

def ocbFinalE (aesE : Nat → Nat) (offset checksum : Nat) (buf : List Nat) :
    List Nat × Nat :=
  let offset2 := s2 offset
  let len := buf.length
  let pad := aesE ((len * 8) ^^^ offset2)
  let block := buf ++ (natToBytesBE 16 pad).drop len
  let plain := bytesToNatBE block
  let encrypted := pad ^^^ plain
  ((natToBytesBE 16 encrypted).take len,
    aesE (offset2 ^^^ s2 offset2 ^^^ (checksum ^^^ plain)))

def ocbEncryptGo (aesE : Nat → Nat) : Nat → Nat → Nat → List Nat → List Nat × Nat
  | 0, offset, checksum, buf => ocbFinalE aesE offset checksum buf
  | fuel + 1, offset, checksum, buf =>
    if buf.length > 16 then
      let chunk := buf.take 16
      let offset2 := s2 offset
      let plain := bytesToNatBE chunk
      let encrypted := aesE (offset2 ^^^ plain) ^^^ offset2
      let r := ocbEncryptGo aesE fuel offset2 (checksum ^^^ plain) (buf.drop 16)
      (natToBytesBE 16 encrypted ++ r.1, r.2)
    else ocbFinalE aesE offset checksum buf

def ocbEncrypt (aesE : Nat → Nat) (nonce : Nat) (buf : List Nat) : List Nat × Nat :=
  ocbEncryptGo aesE buf.length (aesE (bswap128 nonce)) 0 buf

def ocbFinalD (aesE : Nat → Nat) (offset checksum : Nat) (buf : List Nat) :
    List Nat × Nat :=
  let offset2 := s2 offset
  let len := buf.length
  let pad := aesE ((len * 8) ^^^ offset2)
  let block := buf ++ List.replicate (16 - len) 0
  let plain := bytesToNatBE block ^^^ pad
  ((natToBytesBE 16 plain).take len,
    aesE (offset2 ^^^ s2 offset2 ^^^ (checksum ^^^ plain)))

def ocbDecryptGo (aesD aesE : Nat → Nat) :
    Nat → Nat → Nat → List Nat → List Nat × Nat
  | 0, offset, checksum, buf => ocbFinalD aesE offset checksum buf
  | fuel + 1, offset, checksum, buf =>
    if buf.length > 16 then
      let chunk := buf.take 16
      let offset2 := s2 offset
      let encrypted := bytesToNatBE chunk
      let plain := aesD (offset2 ^^^ encrypted) ^^^ offset2
      let r := ocbDecryptGo aesD aesE fuel offset2 (checksum ^^^ plain) (buf.drop 16)
      (natToBytesBE 16 plain ++ r.1, r.2)
    else ocbFinalD aesE offset checksum buf

def ocbDecrypt (aesD aesE : Nat → Nat) (nonce : Nat) (buf : List Nat) :
    List Nat × Nat :=
  ocbDecryptGo aesD aesE buf.length (aesE (bswap128 nonce)) 0 buf

/-- The crypt state of `src/crypt.rs`.  The AES key and cipher object are
replaced by the cipher parameters of the operations; `last_good` is an
abstract timestamp (`Instant` in the source). -/
structure CryptState where
  encrypt_nonce : Nat
  decrypt_nonce : Nat
  decrypt_history : Nat → Nat
  good : Nat
  late : Nat
  lost : Nat
  resync : Nat
  last_good : Nat

/-- Nonce-window bookkeeping of `CryptState::decrypt` (lines 122-145 of
`src/crypt.rs`), before the OCB pass.  Returns the updated nonce, the
`late` flag and the signed `lost` delta, or the early error.

`d8` is `nonce_0.wrapping_sub(self.decrypt_nonce as u8)`; the `i8` cast
makes `diff` = `d8` when `d8 < 128` and `d8 - 256` otherwise, so:
`diff > 0` is `0 < d8 ∧ d8 < 128`; `diff > -30` (given `diff ≤ 0`) is
`d8 = 0 ∨ 226 < d8`; and `diff as u128` (sign extension followed by
`wrapping_add`) adds `d8` when `d8 < 128` and `2 ^ 128 - 256 + d8`
otherwise. -/
def nonceUpdate (st : CryptState) (nonce0 : Nat) :
    Except DecryptError (Nat × Bool × Int) :=
  if (st.decrypt_nonce + 1) % 2 ^ 128 % 256 = nonce0 then
    .ok ((st.decrypt_nonce + 1) % 2 ^ 128, false, 0)
  else
    let d8 := (nonce0 + 256 - st.decrypt_nonce % 256) % 256
    let diffU := if d8 < 128 then d8 else 2 ^ 128 - 256 + d8
    let nonce2 := (st.decrypt_nonce + diffU) % 2 ^ 128
    if 0 < d8 ∧ d8 < 128 then .ok (nonce2, false, (d8 : Int) - 1)
    else if d8 = 0 ∨ 226 < d8 then
      if st.decrypt_history nonce0 = (nonce2 >>> 8) % 256 then .error .repeat_
      else .ok (nonce2, true, -1)
    else .error .late

/-- `CryptState::decrypt` (`src/crypt.rs` lines 109-166).  Returns the
state after the call together with the result.  The final `lost` update
models `self.lost = (self.lost as i32 + lost) as u32`: composing the
two's-complement casts gives addition modulo `2 ^ 32`. -/
def decrypt (dir : Dir) (aesE aesD : Nat → Nat) (now : Nat) (st : CryptState)
    (buf : List Nat) : CryptState × Except DecryptError VoicePacketM :=
  match buf with
  | b0 :: b1 :: b2 :: b3 :: rest =>
    match nonceUpdate st b0 with
    | .error e => (st, .error e)
    | .ok (nonce2, late, lostDelta) =>
      let r := ocbDecrypt aesD aesE nonce2 rest
      if [b1, b2, b3] = (natToBytesBE 16 r.2).take 3 then
        let st2 : CryptState :=
          { st with
            decrypt_history := fun i =>
              if i = b0 then (nonce2 >>> 8) % 256 else st.decrypt_history i,
            good := st.good + 1,
            last_good := now,
            late := if late then st.late + 1 else st.late,
            decrypt_nonce := if late then st.decrypt_nonce else nonce2,
            lost := (((st.lost : Int) + lostDelta).emod (2 ^ 32)).toNat }
        (st2, decodeVoicePacket dir r.1)
      else (st, .error .mac)
  | _ => (st, .error .eof)

/-- `CryptState::encrypt` (`src/crypt.rs` lines 92-106): wrapping nonce
increment, encode, OCB, then the 4-byte header (low nonce byte and the
top three tag bytes). -/
def encrypt (dir : Dir) (aesE : Nat → Nat) (st : CryptState) (p : VoicePacketM) :
    CryptState × List Nat :=
  let nonce2 := (st.encrypt_nonce + 1) % 2 ^ 128
  let inner := encodeVoicePacket dir p
  let r := ocbEncrypt aesE nonce2 inner
  ({ st with encrypt_nonce := nonce2 },
    nonce2 % 256 :: ((natToBytesBE 16 r.2).take 3 ++ r.1))

theorem s2_lt (x : Nat) (hx : x < 2 ^ 128) : s2 x < 2 ^ 128 := by
  rw [s2]
  have h1 : (x <<< 1) % 2 ^ 128 < 2 ^ 128 := Nat.mod_lt _ (by positivity)
  have h2 : x >>> 127 < 2 ^ 128 := by
    rw [Nat.shiftRight_eq_div_pow]
    have : x / 2 ^ 127 ≤ x := Nat.div_le_self _ _
    omega
  have h3 := Nat.or_lt_two_pow h1 h2
  have h4 : (((x <<< 1) % 2 ^ 128 ||| x >>> 127) &&& 1) * 0x86 < 2 ^ 128 := by
    have := Nat.and_le_right (n := (x <<< 1) % 2 ^ 128 ||| x >>> 127) (m := 1)
    calc (((x <<< 1) % 2 ^ 128 ||| x >>> 127) &&& 1) * 0x86 ≤ 1 * 0x86 :=
          Nat.mul_le_mul_right _ this
      _ < 2 ^ 128 := by norm_num
  exact Nat.xor_lt_two_pow h3 h4

theorem bswap128_lt (n : Nat) : bswap128 n < 2 ^ 128 := by
  rw [bswap128]
  have h := bytesToNatBE_lt_two_pow (natToBytesBE 16 n).reverse
    (fun b hb => natToBytesBE_mem_lt 16 n b (List.mem_reverse.mp hb))
  simpa [natToBytesBE_length] using h

theorem zipWith_xor_mem_lt (as bs : List Nat)
    (ha : ∀ b ∈ as, b < 256) (hb : ∀ b ∈ bs, b < 256) :
    ∀ b ∈ List.zipWith (fun x y => x ^^^ y) as bs, b < 256 := by
  induction as generalizing bs with
  | nil => simp
  | cons x xs ih =>
    cases bs with
    | nil => simp
    | cons y ys =>
      intro b hbm
      rcases List.mem_cons.mp hbm with rfl | hbm
      · have h256 : (256 : Nat) = 2 ^ 8 := by norm_num
        rw [h256]
        exact Nat.xor_lt_two_pow (by have := ha x (by simp); omega)
          (by have := hb y (by simp); omega)
      · exact ih ys (fun z hz => ha z (by simp [hz]))
          (fun z hz => hb z (by simp [hz])) b hbm

theorem zipWith_xor_cancel (as bs : List Nat) (hlen : as.length = bs.length) :
    List.zipWith (fun x y => x ^^^ y) (List.zipWith (fun x y => x ^^^ y) as bs) as
      = bs := by
  induction as generalizing bs with
  | nil =>
    cases bs with
    | nil => simp
    | cons y ys => simp at hlen
  | cons x xs ih =>
    cases bs with
    | nil => simp at hlen
    | cons y ys =>
      simp only [List.zipWith_cons_cons, List.cons.injEq]
      refine ⟨?_, ih ys (by simpa using hlen)⟩
      rw [Nat.xor_comm x y, Nat.xor_cancel_right]

theorem zipWith_zero_xor (l : List Nat) (k : Nat) (hlen : l.length = k) :
    List.zipWith (fun x y => x ^^^ y) (List.replicate k 0) l = l := by
  induction l generalizing k with
  | nil => subst hlen; simp
  | cons x xs ih =>
    subst hlen
    simp only [List.length_cons, List.replicate_succ, List.zipWith_cons_cons,
      Nat.zero_xor]
    rw [ih xs.length rfl]

theorem ocbFinalE_len (aesE : Nat → Nat) (offset checksum : Nat) (buf : List Nat)
    (hlen : buf.length ≤ 16) :
    (ocbFinalE aesE offset checksum buf).1.length = buf.length := by
  simp only [ocbFinalE]
  rw [List.length_take, natToBytesBE_length]
  omega

theorem ocbEncryptGo_len (aesE : Nat → Nat) : ∀ (fuel : Nat) (buf : List Nat)
    (offset checksum : Nat), buf.length ≤ fuel →
    (ocbEncryptGo aesE fuel offset checksum buf).1.length = buf.length := by
  intro fuel
  induction fuel with
  | zero =>
    intro buf offset checksum hfuel
    have hnil : buf = [] := List.eq_nil_of_length_eq_zero (by omega)
    subst hnil
    simp [ocbEncryptGo, ocbFinalE_len]
  | succ fuel ih =>
    intro buf offset checksum hfuel
    rw [ocbEncryptGo]
    by_cases hlen : buf.length > 16
    · rw [if_pos hlen]
      simp only [List.length_append, natToBytesBE_length]
      rw [ih (buf.drop 16) _ _ (by simp [List.length_drop]; omega)]
      simp [List.length_drop]
      omega
    · rw [if_neg hlen]
      exact ocbFinalE_len _ _ _ _ (by omega)

/-- Round trip of the OCB final (possibly partial) block. -/
theorem ocbFinal_roundtrip (aesE : Nat → Nat)
    (hE : ∀ x, x < 2 ^ 128 → aesE x < 2 ^ 128)
    (offset checksum : Nat) (buf : List Nat)
    (hlen : buf.length ≤ 16) (hbytes : ∀ b ∈ buf, b < 256)
    (hoff : offset < 2 ^ 128) :
    ocbFinalD aesE offset checksum (ocbFinalE aesE offset checksum buf).1
      = (buf, (ocbFinalE aesE offset checksum buf).2) := by
  have h2p : (256 : Nat) ^ 16 = 2 ^ 128 := by norm_num
  set offset2 := s2 offset with hoffset2
  set len := buf.length with hlendef
  set pad := aesE ((len * 8) ^^^ offset2) with hpad
  have hoff2 : offset2 < 2 ^ 128 := s2_lt offset hoff
  have hpadlt : pad < 2 ^ 128 := by
    apply hE
    exact Nat.xor_lt_two_pow (by omega) hoff2
  set pb := natToBytesBE 16 pad with hpb
  have hpblen : pb.length = 16 := natToBytesBE_length _ _
  have hpblt : ∀ b ∈ pb, b < 256 := natToBytesBE_mem_lt _ _
  have hpbval : bytesToNatBE pb = pad := by
    rw [hpb, bytesToNatBE_natToBytesBE, h2p, Nat.mod_eq_of_lt hpadlt]
  set block := buf ++ pb.drop len with hblock
  have hblocklen : block.length = 16 := by
    rw [hblock, List.length_append, List.length_drop, hpblen]
    omega
  have hblockbytes : ∀ b ∈ block, b < 256 := by
    intro b hb
    rcases List.mem_append.mp hb with hb | hb
    · exact hbytes b hb
    · exact hpblt b (List.mem_of_mem_drop hb)
  set plain := bytesToNatBE block with hplain
  have hplainlt : plain < 2 ^ 128 := by
    have := bytesToNatBE_lt_two_pow block hblockbytes
    rwa [hblocklen] at this
  set enc := pad ^^^ plain with henc
  have henclt : enc < 2 ^ 128 := Nat.xor_lt_two_pow hpadlt hplainlt
  have hencbytes : natToBytesBE 16 enc = List.zipWith (fun x y => x ^^^ y) pb block := by
    have h1 : enc = bytesToNatBE (List.zipWith (fun x y => x ^^^ y) pb block) := by
      rw [bytesToNatBE_zipWith_xor pb block (by omega) hpblt hblockbytes, hpbval,
        ← hplain, henc]
    rw [h1]
    exact natToBytesBE_bytesToNatBE 16 _
      (by simp [List.length_zipWith, hpblen, hblocklen])
      (zipWith_xor_mem_lt pb block hpblt hblockbytes)
  have hc : (natToBytesBE 16 enc).take len
      = List.zipWith (fun x y => x ^^^ y) (pb.take len) buf := by
    rw [hencbytes, List.zipWith_distrib_take]
    congr 1
    rw [hblock, hlendef, List.take_left]
  have hclen : ((natToBytesBE 16 enc).take len).length = len := by
    rw [List.length_take, natToBytesBE_length]
    omega
  have hcbytes : ∀ b ∈ (natToBytesBE 16 enc).take len, b < 256 :=
    fun b hb => natToBytesBE_mem_lt 16 enc b (List.mem_of_mem_take hb)
  -- the decrypted padded block equals the encrypted padded block
  have hblock2 : List.zipWith (fun x y => x ^^^ y)
      ((natToBytesBE 16 enc).take len ++ List.replicate (16 - len) 0) pb = block := by
    rw [hc]
    nth_rewrite 2 [show pb = pb.take len ++ pb.drop len
      from (List.take_append_drop len pb).symm]
    rw [List.zipWith_append _ _ _ _ _ (by
      simp only [List.length_zipWith, List.length_take, hpblen, hlendef]
      omega)]
    rw [zipWith_xor_cancel (pb.take len) buf (by
      simp only [List.length_take, hpblen, hlendef]
      omega)]
    rw [zipWith_zero_xor (pb.drop len) (16 - len) (by
      simp only [List.length_drop, hpblen])]
  have hplain2 : bytesToNatBE ((natToBytesBE 16 enc).take len
      ++ List.replicate (16 - len) 0) ^^^ pad = plain := by
    have hlen2 : ((natToBytesBE 16 enc).take len ++ List.replicate (16 - len) 0).length
        = 16 := by
      rw [List.length_append, hclen, List.length_replicate]
      omega
    have hbytes2 : ∀ b ∈ (natToBytesBE 16 enc).take len ++ List.replicate (16 - len) 0,
        b < 256 := by
      intro b hb
      rcases List.mem_append.mp hb with hb | hb
      · exact hcbytes b hb
      · have := List.eq_of_mem_replicate hb
        omega
    calc bytesToNatBE ((natToBytesBE 16 enc).take len ++ List.replicate (16 - len) 0)
          ^^^ pad
        = bytesToNatBE ((natToBytesBE 16 enc).take len ++ List.replicate (16 - len) 0)
          ^^^ bytesToNatBE pb := by rw [hpbval]
      _ = bytesToNatBE (List.zipWith (fun x y => x ^^^ y)
          ((natToBytesBE 16 enc).take len ++ List.replicate (16 - len) 0) pb) := by
            rw [bytesToNatBE_zipWith_xor _ _ (by omega) hbytes2 hpblt]
      _ = bytesToNatBE block := by rw [hblock2]
      _ = plain := rfl
  -- assemble
  simp only [ocbFinalE, ocbFinalD]
  rw [Prod.mk.injEq]
  constructor
  · rw [hclen, hplain2]
    rw [show natToBytesBE 16 plain = block from
      natToBytesBE_bytesToNatBE 16 block hblocklen hblockbytes]
    rw [hblock, hlendef, List.take_left]
  · rw [hclen, hplain2]

theorem ocbGo_roundtrip (aesE aesD : Nat → Nat)
    (hInv : ∀ x, x < 2 ^ 128 → aesD (aesE x) = x)
    (hE : ∀ x, x < 2 ^ 128 → aesE x < 2 ^ 128) :
    ∀ (fuel : Nat) (buf : List Nat) (offset checksum : Nat),
      buf.length ≤ fuel → (∀ b ∈ buf, b < 256) → offset < 2 ^ 128 →
      ocbDecryptGo aesD aesE fuel offset checksum
          (ocbEncryptGo aesE fuel offset checksum buf).1
        = (buf, (ocbEncryptGo aesE fuel offset checksum buf).2) := by
  intro fuel
  induction fuel with
  | zero =>
    intro buf offset checksum hfuel hbytes hoff
    have hnil : buf = [] := List.eq_nil_of_length_eq_zero (by omega)
    subst hnil
    rw [ocbEncryptGo, ocbDecryptGo]
    exact ocbFinal_roundtrip aesE hE offset checksum [] (by simp) (by simp) hoff
  | succ fuel ih =>
    intro buf offset checksum hfuel hbytes hoff
    by_cases hlen : buf.length > 16
    · rw [ocbEncryptGo, if_pos hlen]
      set offset2 := s2 offset with hoffset2
      have hoff2 : offset2 < 2 ^ 128 := s2_lt offset hoff
      set chunk := buf.take 16 with hchunk
      have hchunklen : chunk.length = 16 := by
        rw [hchunk, List.length_take]
        omega
      have hchunkbytes : ∀ b ∈ chunk, b < 256 :=
        fun b hb => hbytes b (List.mem_of_mem_take hb)
      set plain := bytesToNatBE chunk with hplain
      have hplainlt : plain < 2 ^ 128 := by
        have := bytesToNatBE_lt_two_pow chunk hchunkbytes
        rwa [hchunklen] at this
      set enc := aesE (offset2 ^^^ plain) ^^^ offset2 with henc
      have henclt : enc < 2 ^ 128 :=
        Nat.xor_lt_two_pow (hE _ (Nat.xor_lt_two_pow hoff2 hplainlt)) hoff2
      have hreclen : (ocbEncryptGo aesE fuel offset2 (checksum ^^^ plain)
          (buf.drop 16)).1.length = buf.length - 16 := by
        rw [ocbEncryptGo_len aesE fuel (buf.drop 16) _ _ (by
          rw [List.length_drop]; omega)]
        rw [List.length_drop]
      rw [ocbDecryptGo]
      rw [if_pos (by
        simp only [List.length_append, natToBytesBE_length, hreclen]
        omega)]
      have htake : (natToBytesBE 16 enc ++ (ocbEncryptGo aesE fuel offset2
          (checksum ^^^ plain) (buf.drop 16)).1).take 16 = natToBytesBE 16 enc := by
        have h := List.take_left (natToBytesBE 16 enc)
          (ocbEncryptGo aesE fuel offset2 (checksum ^^^ plain) (buf.drop 16)).1
        rwa [natToBytesBE_length] at h
      have hdrop : (natToBytesBE 16 enc ++ (ocbEncryptGo aesE fuel offset2
          (checksum ^^^ plain) (buf.drop 16)).1).drop 16
          = (ocbEncryptGo aesE fuel offset2 (checksum ^^^ plain) (buf.drop 16)).1 := by
        have h := List.drop_left (natToBytesBE 16 enc)
          (ocbEncryptGo aesE fuel offset2 (checksum ^^^ plain) (buf.drop 16)).1
        rwa [natToBytesBE_length] at h
      rw [htake, hdrop]
      dsimp only
      have hencval : bytesToNatBE (natToBytesBE 16 enc) = enc := by
        rw [bytesToNatBE_natToBytesBE]
        have h2p : (256 : Nat) ^ 16 = 2 ^ 128 := by norm_num
        rw [h2p, Nat.mod_eq_of_lt henclt]
      rw [hencval]
      have hplain2 : aesD (offset2 ^^^ enc) ^^^ offset2 = plain := by
        rw [henc]
        rw [show offset2 ^^^ (aesE (offset2 ^^^ plain) ^^^ offset2)
            = aesE (offset2 ^^^ plain) by
          rw [Nat.xor_comm (aesE (offset2 ^^^ plain)) offset2, Nat.xor_cancel_left]]
        rw [hInv _ (Nat.xor_lt_two_pow hoff2 hplainlt)]
        rw [Nat.xor_comm offset2 plain, Nat.xor_cancel_right]
      rw [hplain2]
      have hplainbytes : natToBytesBE 16 plain = chunk :=
        natToBytesBE_bytesToNatBE 16 chunk hchunklen hchunkbytes
      rw [hplainbytes]
      rw [ih (buf.drop 16) offset2 (checksum ^^^ plain)
        (by rw [List.length_drop]; omega)
        (fun b hb => hbytes b (List.mem_of_mem_drop hb)) hoff2]
      rw [Prod.mk.injEq]
      constructor
      · rw [hchunk, List.take_append_drop]
      · rfl
    · rw [ocbEncryptGo, if_neg hlen, ocbDecryptGo]
      have hfinlen : (ocbFinalE aesE offset checksum buf).1.length = buf.length :=
        ocbFinalE_len aesE offset checksum buf (by omega)
      rw [if_neg (by rw [hfinlen]; omega)]
      exact ocbFinal_roundtrip aesE hE offset checksum buf (by omega) hbytes hoff

theorem ocb_roundtrip (aesE aesD : Nat → Nat)
    (hInv : ∀ x, x < 2 ^ 128 → aesD (aesE x) = x)
    (hE : ∀ x, x < 2 ^ 128 → aesE x < 2 ^ 128)
    (nonce : Nat) (buf : List Nat) (hbytes : ∀ b ∈ buf, b < 256) :
    ocbDecrypt aesD aesE nonce (ocbEncrypt aesE nonce buf).1
      = (buf, (ocbEncrypt aesE nonce buf).2) := by
  rw [ocbEncrypt, ocbDecrypt]
  rw [ocbEncryptGo_len aesE buf.length buf _ _ (le_refl _)]
  exact ocbGo_roundtrip aesE aesD hInv hE buf.length buf _ 0 (le_refl _) hbytes
    (hE _ (bswap128_lt nonce))

/-! ## Crypt round-trip (C2) -/

theorem natToBytesBE_take3 (t : Nat) : (natToBytesBE 16 t).take 3
    = [t / 256 ^ 15 % 256, t / 256 ^ 14 % 256, t / 256 ^ 13 % 256] := rfl

/-- An all-zero crypt state: counters cleared and both nonces 0, so that a
pair of copies is mirrored (receiver `decrypt_nonce` = sender
`encrypt_nonce`).  Used for the concrete scenarios below. -/
def zeroCryptState : CryptState :=
  { encrypt_nonce := 0, decrypt_nonce := 0, decrypt_history := fun _ => 0,
    good := 0, late := 0, lost := 0, resync := 0, last_good := 0 }

/-- C2 (amended): with the receiver mirrored on the sender
(`decrypt_nonce` = `encrypt_nonce`) and a wire-well-formed packet,
decrypting the sender's encryption returns the packet, and afterwards the
receiver's `decrypt_nonce` equals the sender's new `encrypt_nonce`.  The
well-formedness condition `wfVoicePacket` is needed: the claim is false
for arbitrary packets (see the counterexample). -/
theorem c2_crypt_roundtrip (dir : Dir) (aesE aesD : Nat → Nat)
    (hInv : ∀ x, x < 2 ^ 128 → aesD (aesE x) = x)
    (hE : ∀ x, x < 2 ^ 128 → aesE x < 2 ^ 128)
    (now : Nat) (ss sr : CryptState) (p : VoicePacketM)
    (hmirror : sr.decrypt_nonce = ss.encrypt_nonce)
    (hwf : wfVoicePacket dir p = true) :
    (decrypt dir aesE aesD now sr (encrypt dir aesE ss p).2).2 = .ok p ∧
    (decrypt dir aesE aesD now sr (encrypt dir aesE ss p).2).1.decrypt_nonce
      = (encrypt dir aesE ss p).1.encrypt_nonce := by
  set nonce2 := (ss.encrypt_nonce + 1) % 2 ^ 128 with hn2
  set inner := encodeVoicePacket dir p with hinner
  set r := ocbEncrypt aesE nonce2 inner with hr
  have hbuf : (encrypt dir aesE ss p).2
      = nonce2 % 256 :: r.2 / 256 ^ 15 % 256 :: r.2 / 256 ^ 14 % 256
        :: r.2 / 256 ^ 13 % 256 :: r.1 := by
    show nonce2 % 256 :: ((natToBytesBE 16 r.2).take 3 ++ r.1) = _
    rw [natToBytesBE_take3]
    rfl
  have henc1 : (encrypt dir aesE ss p).1.encrypt_nonce = nonce2 := rfl
  have hsn : (sr.decrypt_nonce + 1) % 2 ^ 128 = nonce2 := by
    rw [hmirror, hn2]
  have hupd : nonceUpdate sr (nonce2 % 256) = .ok (nonce2, false, 0) := by
    unfold nonceUpdate
    rw [hsn, if_pos rfl]
  have hocb : ocbDecrypt aesD aesE nonce2 r.1 = (inner, r.2) := by
    rw [hr, hinner]
    exact ocb_roundtrip aesE aesD hInv hE nonce2 (encodeVoicePacket dir p)
      (encodeVoicePacket_mem_lt dir p hwf)
  rw [hbuf]
  show (match nonceUpdate sr (nonce2 % 256) with
    | .error e => (sr, Except.error e)
    | .ok (n2, late, lostDelta) =>
      let r2 := ocbDecrypt aesD aesE n2 r.1
      if [r.2 / 256 ^ 15 % 256, r.2 / 256 ^ 14 % 256, r.2 / 256 ^ 13 % 256]
          = (natToBytesBE 16 r2.2).take 3 then
        ({ sr with
            decrypt_history := fun i =>
              if i = nonce2 % 256 then (n2 >>> 8) % 256 else sr.decrypt_history i,
            good := sr.good + 1,
            last_good := now,
            late := if late then sr.late + 1 else sr.late,
            decrypt_nonce := if late then sr.decrypt_nonce else n2,
            lost := (((sr.lost : Int) + lostDelta).emod (2 ^ 32)).toNat },
          decodeVoicePacket dir r2.1)
      else (sr, Except.error .mac)).2 = Except.ok p
      ∧ (match nonceUpdate sr (nonce2 % 256) with
    | .error e => (sr, Except.error e)
    | .ok (n2, late, lostDelta) =>
      let r2 := ocbDecrypt aesD aesE n2 r.1
      if [r.2 / 256 ^ 15 % 256, r.2 / 256 ^ 14 % 256, r.2 / 256 ^ 13 % 256]
          = (natToBytesBE 16 r2.2).take 3 then
        ({ sr with
            decrypt_history := fun i =>
              if i = nonce2 % 256 then (n2 >>> 8) % 256 else sr.decrypt_history i,
            good := sr.good + 1,
            last_good := now,
            late := if late then sr.late + 1 else sr.late,
            decrypt_nonce := if late then sr.decrypt_nonce else n2,
            lost := (((sr.lost : Int) + lostDelta).emod (2 ^ 32)).toNat },
          decodeVoicePacket dir r2.1)
      else (sr, Except.error .mac)).1.decrypt_nonce
      = (encrypt dir aesE ss p).1.encrypt_nonce
  rw [hupd]
  simp only [hocb]
  rw [if_pos (by rw [natToBytesBE_take3])]
  refine ⟨decodeVoicePacket_encodeVoicePacket dir p hwf, ?_⟩
  rw [henc1]
  rfl


/-- C2: counterexample to the unconditional claim.  With the identity
block cipher and mirrored zero states, a packet whose `position_info` is
`Some` of the empty byte string does not survive the round trip: the
decoder maps an empty trailing buffer to `None` (`src/voice.rs`
line 187), so `decrypt (encrypt P) ≠ P` for this `P`. -/
theorem c2_counterexample :
    (decrypt .serverbound (fun x => x) (fun x => x) 0 zeroCryptState
      (encrypt .serverbound (fun x => x) zeroCryptState
        (.audio 0 none 0 (.opus [] false) (some []))).2).2
      ≠ .ok (.audio 0 none 0 (.opus [] false) (some [])) := by decide

/-- C2: the amended round trip at a concrete input (identity cipher,
mirrored zero states, a well-formed Opus packet). -/
theorem c2_crypt_roundtrip_witness :
    (decrypt .serverbound (fun x => x) (fun x => x) 7 zeroCryptState
      (encrypt .serverbound (fun x => x) zeroCryptState
        (.audio 3 none 5 (.opus [10, 20] false) none)).2).2
      = .ok (.audio 3 none 5 (.opus [10, 20] false) none) :=
  (c2_crypt_roundtrip .serverbound (fun x => x) (fun x => x)
    (fun _ _ => rfl) (fun _ h => h) 7 zeroCryptState zeroCryptState
    (.audio 3 none 5 (.opus [10, 20] false) none) rfl (by decide)).1



/-! ## Replay detection (C3) -/

theorem decrypt_cons (dir : Dir) (aesE aesD : Nat → Nat) (now : Nat)
    (s : CryptState) (b0 b1 b2 b3 : Nat) (rest : List Nat) :
    decrypt dir aesE aesD now s (b0 :: b1 :: b2 :: b3 :: rest)
    = (match nonceUpdate s b0 with
      | .error e => (s, Except.error e)
      | .ok (n2, lt, ld) =>
        let r := ocbDecrypt aesD aesE n2 rest
        if [b1, b2, b3] = (natToBytesBE 16 r.2).take 3 then
          ({ s with
              decrypt_history := fun i =>
                if i = b0 then (n2 >>> 8) % 256 else s.decrypt_history i,
              good := s.good + 1,
              last_good := now,
              late := if lt then s.late + 1 else s.late,
              decrypt_nonce := if lt then s.decrypt_nonce else n2,
              lost := (((s.lost : Int) + ld).emod (2 ^ 32)).toNat },
            decodeVoicePacket dir r.1)
        else (s, Except.error .mac)) := rfl

theorem decrypt_repeat_of_nonceUpdate (dir : Dir) (aesE aesD : Nat → Nat)
    (now : Nat) (s : CryptState) (b0 b1 b2 b3 : Nat) (rest : List Nat)
    (h : nonceUpdate s b0 = .error .repeat_) :
    decrypt dir aesE aesD now s (b0 :: b1 :: b2 :: b3 :: rest)
      = (s, .error .repeat_) := by
  rw [decrypt_cons, h]

/-- After an in-order or lost-window accept the nonce low byte matches the
header byte and the history slot holds the second nonce byte, so the next
`nonceUpdate` with the same header byte lands in the `d8 = 0` branch and
reports a repeat. -/
theorem nonceUpdate_replay_fresh (s : CryptState) (b0 : Nat)
    (hdn : s.decrypt_nonce % 256 = b0 % 256)
    (hlt : s.decrypt_nonce < 2 ^ 128)
    (hh : s.decrypt_history b0 = (s.decrypt_nonce >>> 8) % 256) :
    nonceUpdate s b0 = .error .repeat_ := by
  have hd8 : (b0 + 256 - s.decrypt_nonce % 256) % 256 = 0 := by omega
  simp only [nonceUpdate]
  rw [if_neg (show ¬ (s.decrypt_nonce + 1) % 2 ^ 128 % 256 = b0 by omega)]
  rw [if_neg (show ¬ (0 < (b0 + 256 - s.decrypt_nonce % 256) % 256
      ∧ (b0 + 256 - s.decrypt_nonce % 256) % 256 < 128) by omega)]
  rw [if_pos (Or.inl hd8)]
  have hhist : s.decrypt_history b0
      = (((s.decrypt_nonce + if (b0 + 256 - s.decrypt_nonce % 256) % 256 < 128
            then (b0 + 256 - s.decrypt_nonce % 256) % 256
            else 2 ^ 128 - 256 + (b0 + 256 - s.decrypt_nonce % 256) % 256)
          % 2 ^ 128) >>> 8) % 256 := by
    rw [hd8]
    rw [if_pos (show (0 : Nat) < 128 by norm_num)]
    rw [Nat.add_zero, Nat.mod_eq_of_lt hlt]
    exact hh
  rw [if_pos hhist]

/-- After a late accept the nonce is restored, so a replay recomputes the
same `d8` and, the history slot now being filled, reports a repeat. -/
theorem nonceUpdate_replay_late (s : CryptState) (b0 : Nat)
    (hC : ¬ (s.decrypt_nonce + 1) % 2 ^ 128 % 256 = b0)
    (hno : ¬ (0 < (b0 + 256 - s.decrypt_nonce % 256) % 256
        ∧ (b0 + 256 - s.decrypt_nonce % 256) % 256 < 128))
    (hl : (b0 + 256 - s.decrypt_nonce % 256) % 256 = 0
        ∨ 226 < (b0 + 256 - s.decrypt_nonce % 256) % 256)
    (hh : s.decrypt_history b0
      = (((s.decrypt_nonce + if (b0 + 256 - s.decrypt_nonce % 256) % 256 < 128
            then (b0 + 256 - s.decrypt_nonce % 256) % 256
            else 2 ^ 128 - 256 + (b0 + 256 - s.decrypt_nonce % 256) % 256)
          % 2 ^ 128) >>> 8) % 256) :
    nonceUpdate s b0 = .error .repeat_ := by
  simp only [nonceUpdate]
  rw [if_neg hC, if_neg hno, if_pos hl, if_pos hh]

/-- C3: replaying a ciphertext that just decrypted successfully yields the
`Repeat` error and returns the state unchanged (in particular
`decrypt_nonce` keeps its value): the second call is caught by the
`decrypt_history` comparison of `src/crypt.rs` lines 132-137. -/
theorem c3_replay (dir : Dir) (aesE aesD : Nat → Nat) (now now2 : Nat)
    (st : CryptState) (buf : List Nat) (pkt : VoicePacketM)
    (h1 : (decrypt dir aesE aesD now st buf).2 = .ok pkt) :
    decrypt dir aesE aesD now2 (decrypt dir aesE aesD now st buf).1 buf
      = ((decrypt dir aesE aesD now st buf).1, .error .repeat_) := by
  rcases buf with _ | ⟨b0, _ | ⟨b1, _ | ⟨b2, _ | ⟨b3, rest⟩⟩⟩⟩
  · replace h1 : (Except.error DecryptError.eof : Except DecryptError VoicePacketM)
        = Except.ok pkt := h1
    exact Except.noConfusion h1
  · replace h1 : (Except.error DecryptError.eof : Except DecryptError VoicePacketM)
        = Except.ok pkt := h1
    exact Except.noConfusion h1
  · replace h1 : (Except.error DecryptError.eof : Except DecryptError VoicePacketM)
        = Except.ok pkt := h1
    exact Except.noConfusion h1
  · replace h1 : (Except.error DecryptError.eof : Except DecryptError VoicePacketM)
        = Except.ok pkt := h1
    exact Except.noConfusion h1
  · rw [decrypt_cons] at h1
    rcases hu : nonceUpdate st b0 with e | ⟨nonce2, late, lostDelta⟩
    · rw [hu] at h1
      replace h1 : (Except.error e : Except DecryptError VoicePacketM)
          = Except.ok pkt := h1
      exact Except.noConfusion h1
    · rw [hu] at h1
      dsimp only at h1
      by_cases htag : [b1, b2, b3]
          = (natToBytesBE 16 (ocbDecrypt aesD aesE nonce2 rest).2).take 3
      · rw [decrypt_cons dir aesE aesD now st b0 b1 b2 b3 rest, hu]
        dsimp only
        rw [if_pos htag]
        refine decrypt_repeat_of_nonceUpdate dir aesE aesD now2 _ b0 b1 b2 b3 rest ?_
        simp only [nonceUpdate] at hu
        split at hu
        · rw [Except.ok.injEq, Prod.mk.injEq, Prod.mk.injEq] at hu
          obtain ⟨hn, hlt2, hld⟩ := hu
          subst hn; subst hlt2; subst hld
          have hf : ¬(false = true) := by simp
          refine nonceUpdate_replay_fresh _ b0 ?_ ?_ ?_ <;> dsimp only
          · rw [if_neg hf]
            omega
          · rw [if_neg hf]
            omega
          · rw [if_pos rfl, if_neg hf]
        · split at hu
          · rw [Except.ok.injEq, Prod.mk.injEq, Prod.mk.injEq] at hu
            obtain ⟨hn, hlt2, hld⟩ := hu
            subst hn; subst hlt2; subst hld
            rename_i hC2
            have hf : ¬(false = true) := by simp
            have hD : (if (b0 + 256 - st.decrypt_nonce % 256) % 256 < 128
                then (b0 + 256 - st.decrypt_nonce % 256) % 256
                else 2 ^ 128 - 256 + (b0 + 256 - st.decrypt_nonce % 256) % 256)
                = (b0 + 256 - st.decrypt_nonce % 256) % 256 := if_pos hC2.2
            refine nonceUpdate_replay_fresh _ b0 ?_ ?_ ?_ <;> dsimp only
            · rw [if_neg hf, hD]
              omega
            · rw [if_neg hf]
              omega
            · rw [if_pos rfl, if_neg hf]
          · split at hu
            · split at hu
              · split at hu
                · exact Except.noConfusion hu
                · rw [Except.ok.injEq, Prod.mk.injEq, Prod.mk.injEq] at hu
                  obtain ⟨hn, hlt2, hld⟩ := hu
                  subst hn; subst hlt2; subst hld
                  rename_i hC1 hC2 hC3 hD8 hC4
                  refine nonceUpdate_replay_late _ b0 ?_ ?_ ?_ ?_ <;> dsimp only
                  · rw [if_pos rfl]
                    exact hC1
                  · rw [if_pos rfl]
                    exact hC2
                  · rw [if_pos rfl]
                    exact hC3
                  · rw [if_pos rfl, if_pos rfl, if_pos hD8]
              · split at hu
                · exact Except.noConfusion hu
                · rw [Except.ok.injEq, Prod.mk.injEq, Prod.mk.injEq] at hu
                  obtain ⟨hn, hlt2, hld⟩ := hu
                  subst hn; subst hlt2; subst hld
                  rename_i hC1 hC2 hC3 hD8 hC4
                  refine nonceUpdate_replay_late _ b0 ?_ ?_ ?_ ?_ <;> dsimp only
                  · rw [if_pos rfl]
                    exact hC1
                  · rw [if_pos rfl]
                    exact hC2
                  · rw [if_pos rfl]
                    exact hC3
                  · rw [if_pos rfl, if_pos rfl, if_neg hD8]
            · exact Except.noConfusion hu
      · rw [if_neg htag] at h1
        replace h1 : (Except.error DecryptError.mac : Except DecryptError VoicePacketM)
            = Except.ok pkt := h1
        exact Except.noConfusion h1


/-- C3: the replay theorem at a concrete run (identity cipher, zero state,
an Opus packet encrypted and decrypted once, then replayed). -/
theorem c3_replay_witness :
    decrypt .serverbound (fun x => x) (fun x => x) 1
      (decrypt .serverbound (fun x => x) (fun x => x) 0 zeroCryptState
        (encrypt .serverbound (fun x => x) zeroCryptState
          (.audio 1 none 2 (.opus [9] true) none)).2).1
      (encrypt .serverbound (fun x => x) zeroCryptState
        (.audio 1 none 2 (.opus [9] true) none)).2
    = ((decrypt .serverbound (fun x => x) (fun x => x) 0 zeroCryptState
        (encrypt .serverbound (fun x => x) zeroCryptState
          (.audio 1 none 2 (.opus [9] true) none)).2).1, .error .repeat_) :=
  c3_replay .serverbound (fun x => x) (fun x => x) 0 1 zeroCryptState
    (encrypt .serverbound (fun x => x) zeroCryptState
      (.audio 1 none 2 (.opus [9] true) none)).2
    (.audio 1 none 2 (.opus [9] true) none) (by decide)


/-! ## Late window (C4, C5) -/

/-- C4: counterexample to "`good` unchanged on a late accept".  A packet
encrypted under nonce 258 and received by a state at `decrypt_nonce`
258 with the in-order check failing (`d8 = 0`) takes the late path:
`late` is bumped and the nonce restored, but `good` is incremented too
(`src/crypt.rs` line 155 runs on every accept). -/
theorem c4_counterexample :
    ((decrypt .serverbound (fun x => x) (fun x => x) 0
        { zeroCryptState with decrypt_nonce := 258 }
        (encrypt .serverbound (fun x => x)
          { zeroCryptState with encrypt_nonce := 257 }
          (.audio 1 none 2 (.opus [9] true) none)).2).1.late = 1
      ∧ (decrypt .serverbound (fun x => x) (fun x => x) 0
        { zeroCryptState with decrypt_nonce := 258 }
        (encrypt .serverbound (fun x => x)
          { zeroCryptState with encrypt_nonce := 257 }
          (.audio 1 none 2 (.opus [9] true) none)).2).1.decrypt_nonce = 258)
    ∧ (decrypt .serverbound (fun x => x) (fun x => x) 0
        { zeroCryptState with decrypt_nonce := 258 }
        (encrypt .serverbound (fun x => x)
          { zeroCryptState with encrypt_nonce := 257 }
          (.audio 1 none 2 (.opus [9] true) none)).2).1.good = 1 := by
  decide

/-- C4 (amended): a late, non-repeated packet (`-30 < diff <= 0`) whose
tag verifies is accepted: `late` is incremented, `decrypt_nonce` is
restored, and `good` is incremented as well (not left unchanged as the
spec claims); a packet with `diff = -30` (`d8 = 226`) fails with `Late`. -/
theorem c4_late_window (dir : Dir) (aesE aesD : Nat → Nat) (now : Nat)
    (st : CryptState) (b0 b1 b2 b3 : Nat) (rest : List Nat) :
    ((¬ (st.decrypt_nonce + 1) % 2 ^ 128 % 256 = b0) →
     ((b0 + 256 - st.decrypt_nonce % 256) % 256 = 0
        ∨ 226 < (b0 + 256 - st.decrypt_nonce % 256) % 256) →
     ¬ st.decrypt_history b0
        = (((st.decrypt_nonce + if (b0 + 256 - st.decrypt_nonce % 256) % 256 < 128
              then (b0 + 256 - st.decrypt_nonce % 256) % 256
              else 2 ^ 128 - 256 + (b0 + 256 - st.decrypt_nonce % 256) % 256)
            % 2 ^ 128) >>> 8) % 256 →
     [b1, b2, b3] = (natToBytesBE 16 (ocbDecrypt aesD aesE
        ((st.decrypt_nonce + if (b0 + 256 - st.decrypt_nonce % 256) % 256 < 128
            then (b0 + 256 - st.decrypt_nonce % 256) % 256
            else 2 ^ 128 - 256 + (b0 + 256 - st.decrypt_nonce % 256) % 256)
          % 2 ^ 128) rest).2).take 3 →
     (decrypt dir aesE aesD now st (b0 :: b1 :: b2 :: b3 :: rest)).1.late
        = st.late + 1
       ∧ (decrypt dir aesE aesD now st (b0 :: b1 :: b2 :: b3 :: rest)).1.decrypt_nonce
        = st.decrypt_nonce
       ∧ (decrypt dir aesE aesD now st (b0 :: b1 :: b2 :: b3 :: rest)).1.good
        = st.good + 1)
    ∧ ((¬ (st.decrypt_nonce + 1) % 2 ^ 128 % 256 = b0) →
       (b0 + 256 - st.decrypt_nonce % 256) % 256 = 226 →
       decrypt dir aesE aesD now st (b0 :: b1 :: b2 :: b3 :: rest)
         = (st, .error .late)) := by
  constructor
  · intro hC1 hl hrep htag
    have hu : nonceUpdate st b0
        = .ok ((st.decrypt_nonce + if (b0 + 256 - st.decrypt_nonce % 256) % 256 < 128
            then (b0 + 256 - st.decrypt_nonce % 256) % 256
            else 2 ^ 128 - 256 + (b0 + 256 - st.decrypt_nonce % 256) % 256)
          % 2 ^ 128, true, -1) := by
      simp only [nonceUpdate]
      rw [if_neg hC1]
      rw [if_neg (show ¬ (0 < (b0 + 256 - st.decrypt_nonce % 256) % 256
          ∧ (b0 + 256 - st.decrypt_nonce % 256) % 256 < 128) by omega)]
      rw [if_pos hl, if_neg hrep]
    rw [decrypt_cons, hu]
    dsimp only
    rw [if_pos htag]
    dsimp only
    rw [if_pos rfl]
    exact ⟨rfl, rfl, rfl⟩
  · intro hC1 h226
    have hu : nonceUpdate st b0 = .error .late := by
      simp only [nonceUpdate]
      rw [if_neg hC1]
      rw [if_neg (show ¬ (0 < (b0 + 256 - st.decrypt_nonce % 256) % 256
          ∧ (b0 + 256 - st.decrypt_nonce % 256) % 256 < 128) by omega)]
      rw [if_neg (show ¬ ((b0 + 256 - st.decrypt_nonce % 256) % 256 = 0
          ∨ 226 < (b0 + 256 - st.decrypt_nonce % 256) % 256) by omega)]
    rw [decrypt_cons, hu]

/-- C4: the amended late-window theorem at the concrete scenario
(ciphertext `[2, 141, 4, 160, 133, 0, 160, 1, 9]` produced under nonce
258, received at `decrypt_nonce` 258), plus the `d8 = 226` boundary. -/
theorem c4_late_window_witness :
    ((decrypt .serverbound (fun x => x) (fun x => x) 0
        { zeroCryptState with decrypt_nonce := 258 }
        (2 :: 141 :: 4 :: 160 :: [133, 0, 160, 1, 9])).1.late = 0 + 1
      ∧ (decrypt .serverbound (fun x => x) (fun x => x) 0
        { zeroCryptState with decrypt_nonce := 258 }
        (2 :: 141 :: 4 :: 160 :: [133, 0, 160, 1, 9])).1.decrypt_nonce = 258
      ∧ (decrypt .serverbound (fun x => x) (fun x => x) 0
        { zeroCryptState with decrypt_nonce := 258 }
        (2 :: 141 :: 4 :: 160 :: [133, 0, 160, 1, 9])).1.good = 0 + 1)
    ∧ decrypt .serverbound (fun x => x) (fun x => x) 0
        { zeroCryptState with decrypt_nonce := 258 }
        (228 :: 0 :: 0 :: 0 :: [])
        = ({ zeroCryptState with decrypt_nonce := 258 }, .error .late) :=
  ⟨(c4_late_window .serverbound (fun x => x) (fun x => x) 0
      { zeroCryptState with decrypt_nonce := 258 } 2 141 4 160
      [133, 0, 160, 1, 9]).1 (by decide) (by decide) (by decide) (by decide),
   (c4_late_window .serverbound (fun x => x) (fun x => x) 0
      { zeroCryptState with decrypt_nonce := 258 } 228 0 0 0 []).2
      (by decide) (by decide)⟩


/-- C5: the `lost` update is not saturating.  In the late-accept scenario
(`lost` delta `-1` with `lost = 0`) the update
`self.lost = (self.lost as i32 + lost) as u32` (`src/crypt.rs` line 163)
wraps: the resulting `lost` is `4294967295`, not `0`. -/
theorem c5_lost_wraps :
    (decrypt .serverbound (fun x => x) (fun x => x) 0
        { zeroCryptState with decrypt_nonce := 258 }
        (encrypt .serverbound (fun x => x)
          { zeroCryptState with encrypt_nonce := 257 }
          (.audio 1 none 2 (.opus [9] true) none)).2).1.lost = 4294967295
      ∧ ({ zeroCryptState with decrypt_nonce := 258 } : CryptState).lost = 0 := by
  decide


/-- C10: when the tag verifies but the decrypted plaintext fails to
parse as a voice packet, `decrypt` returns the parse error, yet the state
has already received exactly the success-path updates (`decrypt_history`,
`good`, `last_good`, nonce handling, `lost`) and nothing is rolled
back (`src/crypt.rs` lines 147-166). -/
theorem c10_state_kept_on_parse_failure (dir : Dir) (aesE aesD : Nat → Nat)
    (now : Nat) (st : CryptState) (b0 b1 b2 b3 : Nat) (rest : List Nat)
    (n2 : Nat) (late : Bool) (lostDelta : Int) (e : DecryptError)
    (hu : nonceUpdate st b0 = .ok (n2, late, lostDelta))
    (htag : [b1, b2, b3]
      = (natToBytesBE 16 (ocbDecrypt aesD aesE n2 rest).2).take 3)
    (hdec : decodeVoicePacket dir (ocbDecrypt aesD aesE n2 rest).1 = .error e) :
    decrypt dir aesE aesD now st (b0 :: b1 :: b2 :: b3 :: rest)
      = ({ st with
            decrypt_history := fun i =>
              if i = b0 then (n2 >>> 8) % 256 else st.decrypt_history i,
            good := st.good + 1,
            last_good := now,
            late := if late then st.late + 1 else st.late,
            decrypt_nonce := if late then st.decrypt_nonce else n2,
            lost := (((st.lost : Int) + lostDelta).emod (2 ^ 32)).toNat },
          .error e) := by
  rw [decrypt_cons, hu]
  dsimp only
  rw [if_pos htag, hdec]

/-- C10: the theorem at a concrete run: identity cipher, ciphertext
`[2, 172, 4, 0, 164]` carrying the one-byte plaintext `[160]` (kind 5,
unparseable) under nonce 258, receiver at `decrypt_nonce` 257. -/
theorem c10_state_kept_on_parse_failure_witness :
    (decrypt .serverbound (fun x => x) (fun x => x) 42
        { zeroCryptState with decrypt_nonce := 257 }
        (2 :: 172 :: 4 :: 0 :: [164])).2 = .error .io
    ∧ (decrypt .serverbound (fun x => x) (fun x => x) 42
        { zeroCryptState with decrypt_nonce := 257 }
        (2 :: 172 :: 4 :: 0 :: [164])).1.good = 1
    ∧ (decrypt .serverbound (fun x => x) (fun x => x) 42
        { zeroCryptState with decrypt_nonce := 257 }
        (2 :: 172 :: 4 :: 0 :: [164])).1.last_good = 42
    ∧ (decrypt .serverbound (fun x => x) (fun x => x) 42
        { zeroCryptState with decrypt_nonce := 257 }
        (2 :: 172 :: 4 :: 0 :: [164])).1.decrypt_nonce = 258
    ∧ (decrypt .serverbound (fun x => x) (fun x => x) 42
        { zeroCryptState with decrypt_nonce := 257 }
        (2 :: 172 :: 4 :: 0 :: [164])).1.decrypt_history 2 = 1 := by
  have h := c10_state_kept_on_parse_failure .serverbound (fun x => x)
    (fun x => x) 42 { zeroCryptState with decrypt_nonce := 257 }
    2 172 4 0 [164] 258 false 0 .io (by decide) (by decide) (by decide)
  rw [h]
  exact ⟨rfl, rfl, rfl, rfl, rfl⟩


/-! ## Voice routing (C1)

Model of `VoicePacket::<Clientbound>::handle`
(`src/handler/voice_packet.rs`).  Clients and channels are association
lists keyed by ids; a channel stores its listeners as pairs of client id
and session id, and `HashMap::insert`/`extend` is insertion with key
replacement. -/

def alookup {α : Type} : List (Nat × α) → Nat → Option α
  | [], _ => none
  | (k0, v0) :: t, k => if k0 = k then some v0 else alookup t k

def insertA {α : Type} : List (Nat × α) → Nat → α → List (Nat × α)
  | [], k, v => [(k, v)]
  | (k0, v0) :: t, k, v =>
    if k0 = k then (k, v) :: t else (k0, v0) :: insertA t k v

def extendA {α : Type} (acc : List (Nat × α)) (l : List (Nat × α)) :
    List (Nat × α) :=
  l.foldl (fun a p => insertA a p.1 p.2) acc

/-- Voice target entry (`state.rs` targets): direct sessions and whole
channels. -/
structure VoiceTargetM where
  sessions : List Nat
  channels : List Nat

/-- The fields of `Client` read by the voice handler. -/
structure RouterClient where
  sessionId : Nat
  mute : Bool
  channelId : Nat
  targets : List VoiceTargetM

/-- The fields of `ServerState` read by the voice handler: clients map
client id to session id; channels map channel id to their listener set
(client id, session id). -/
structure RouterState where
  clients : List (Nat × Nat)
  channels : List (Nat × List (Nat × Nat))

def getListeners (rs : RouterState) (chId : Nat) : List (Nat × Nat) :=
  match alookup rs.channels chId with
  | some ls => ls
  | none => []

/-- Routing decision of `VoicePacket::<Clientbound>::handle` for an audio
packet: the list of session ids the packet is sent to.  The mute check
(lines 15-19) precedes the target match; target 31 echoes to the sender
and returns early (lines 63-69); otherwise the collected listeners other
than the packet's own session id receive the packet (lines 75-88). -/
def voicePacketHandle (rs : RouterState) (sender : RouterClient)
    (packetTarget packetSession : Nat) : List Nat :=
  if sender.mute then []
  else if packetTarget = 0 then
    let listening := extendA [] (getListeners rs sender.channelId)
    (listening.filter (fun p => p.2 ≠ packetSession)).map (fun p => p.2)
  else if 1 ≤ packetTarget ∧ packetTarget ≤ 30 then
    let listening :=
      match sender.targets.get? (packetTarget - 1) with
      | some t =>
        let afterSessions := t.sessions.foldl (fun acc cid =>
          match alookup rs.clients cid with
          | some sess => insertA acc cid sess
          | none => acc) []
        t.channels.foldl (fun acc chid =>
          extendA acc (getListeners rs chid)) afterSessions
      | none => []
    (listening.filter (fun p => p.2 ≠ packetSession)).map (fun p => p.2)
  else if packetTarget = 31 then [sender.sessionId]
  else []

/-- C1: counterexample to "mute is bypassed for loopback".  A muted
sender with target 31 gets nothing back: the mute check returns before
the loopback arm is reached. -/
theorem c1_counterexample :
    voicePacketHandle ⟨[], []⟩ ⟨7, true, 0, []⟩ 31 7 = [] := by decide

/-- C1 (amended): a muted sender's audio packet is dropped for every
target, including loopback (the mute check precedes the target match);
an unmuted sender with target 31 is echoed back exactly its own
session id. -/
theorem c1_mute_loopback (rs : RouterState) (sender : RouterClient)
    (t ps : Nat) :
    (sender.mute = true → voicePacketHandle rs sender t ps = [])
    ∧ (sender.mute = false → t = 31 →
        voicePacketHandle rs sender t ps = [sender.sessionId]) := by
  constructor
  · intro hm
    rw [voicePacketHandle, if_pos hm]
  · intro hm ht
    subst ht
    rw [voicePacketHandle]
    rw [if_neg (by rw [hm]; exact Bool.false_ne_true)]
    rw [if_neg (by norm_num), if_neg (by norm_num), if_pos rfl]

/-- C1: the amended theorem at concrete inputs: a muted sender (session
7) and an unmuted one (session 9), both with target 31. -/
theorem c1_mute_loopback_witness :
    voicePacketHandle ⟨[], []⟩ ⟨7, true, 0, []⟩ 31 7 = []
    ∧ voicePacketHandle ⟨[], []⟩ ⟨9, false, 0, []⟩ 31 9 = [9] :=
  ⟨(c1_mute_loopback ⟨[], []⟩ ⟨7, true, 0, []⟩ 31 7).1 rfl,
   (c1_mute_loopback ⟨[], []⟩ ⟨9, false, 0, []⟩ 31 9).2 rfl rfl⟩


/-! ## UDP server (C7, C8)

Model of `udp_server_run` (`src/server/udp.rs`).  One call handles one
datagram.  The interactions with the socket and the client registry are
abstracted: `ProbeOutcome` says whether `get_client_by_socket` found a
client (and whether its decrypt succeeded) or whether the
`find_client_for_packet` probe matched; the returned `UdpAction` records
which branch replied, dropped or handled the datagram. -/

def eraseA {α : Type} : List (Nat × α) → Nat → List (Nat × α)
  | [], _ => []
  | (k0, v0) :: t, k => if k0 = k then t else (k0, v0) :: eraseA t k

inductive ProbeOutcome where
  | knownClient (decryptOk : Bool)
  | newClient
  | noMatch
deriving DecidableEq

inductive UdpAction where
  | ioError
  | pingReply (reply : List Nat)
  | dropDead
  | decryptError
  | unknownClient
  | handled
deriving DecidableEq

/-- Body of `udp_server_run` after the `dead_clients` map is created
(line 26), parameterised by that map's contents.  Returns the action
taken and the map as left at return. -/
def udpServerRunWith (pv now : Nat) (dead : List (Nat × Nat))
    (payload : List Nat) (addr : Nat) (probe : ProbeOutcome) :
    UdpAction × List (Nat × Nat) :=
  match payload with
  | k0 :: k1 :: k2 :: k3 :: rest =>
    if payload.length = 12 ∧ bytesToNatBE [k0, k1, k2, k3] = 0 then
      let timestamp := bytesToNatLE (rest.take 8)
      (.pingReply (natToBytesBE 4 pv ++ natToBytesLE 8 timestamp
        ++ natToBytesBE 4 0 ++ natToBytesBE 4 250 ++ natToBytesBE 4 72000), dead)
    else
      let dropped := match alookup dead addr with
        | some t => decide (now - t < 20)
        | none => false
      if dropped then (.dropDead, dead)
      else
        match probe with
        | .knownClient ok =>
          if ok then (.handled, eraseA dead addr)
          else (.decryptError, dead)
        | .newClient => (.handled, eraseA dead addr)
        | .noMatch => (.unknownClient, insertA dead addr now)
  | _ => (.ioError, dead)

/-- `udp_server_run`: the `dead_clients` map is a fresh local created at
line 26, so the body always starts from the empty map. -/
def udpServerRun (pv now : Nat) (payload : List Nat) (addr : Nat)
    (probe : ProbeOutcome) : UdpAction :=
  (udpServerRunWith pv now [] payload addr probe).1

/-- `create_udp_server`: calls `udp_server_run` in an endless loop, one
datagram (timestamp, payload, peer address, probe outcome) per call. -/
def createUdpServer (pv : Nat) :
    List (Nat × List Nat × Nat × ProbeOutcome) → List UdpAction
  | [] => []
  | (now, payload, addr, probe) :: t =>
    udpServerRun pv now payload addr probe :: createUdpServer pv t

theorem udpServerRunWith_cons (pv now : Nat) (dead : List (Nat × Nat))
    (k0 k1 k2 k3 : Nat) (rest : List Nat) (addr : Nat) (probe : ProbeOutcome) :
    udpServerRunWith pv now dead (k0 :: k1 :: k2 :: k3 :: rest) addr probe
    = (if (k0 :: k1 :: k2 :: k3 :: rest).length = 12
          ∧ bytesToNatBE [k0, k1, k2, k3] = 0 then
        (.pingReply (natToBytesBE 4 pv
          ++ natToBytesLE 8 (bytesToNatLE (rest.take 8))
          ++ natToBytesBE 4 0 ++ natToBytesBE 4 250 ++ natToBytesBE 4 72000),
          dead)
      else
        if (match alookup dead addr with
            | some t => decide (now - t < 20)
            | none => false) then (.dropDead, dead)
        else
          match probe with
          | .knownClient ok =>
            if ok then (.handled, eraseA dead addr)
            else (.decryptError, dead)
          | .newClient => (.handled, eraseA dead addr)
          | .noMatch => (.unknownClient, insertA dead addr now)) := rfl

/-- With the empty dead-clients map the drop branch can never be taken,
whatever the datagram. -/
theorem udpServerRun_no_drop (pv now : Nat) (payload : List Nat)
    (addr : Nat) (probe : ProbeOutcome) :
    udpServerRun pv now payload addr probe ≠ .dropDead := by
  rcases payload with _ | ⟨k0, _ | ⟨k1, _ | ⟨k2, _ | ⟨k3, rest⟩⟩⟩⟩
  · intro h; exact UdpAction.noConfusion h
  · intro h; exact UdpAction.noConfusion h
  · intro h; exact UdpAction.noConfusion h
  · intro h; exact UdpAction.noConfusion h
  · rw [udpServerRun, udpServerRunWith_cons]
    by_cases hping : (k0 :: k1 :: k2 :: k3 :: rest).length = 12
        ∧ bytesToNatBE [k0, k1, k2, k3] = 0
    · rw [if_pos hping]
      intro h
      exact UdpAction.noConfusion h
    · rw [if_neg hping]
      have hnd : (match alookup ([] : List (Nat × Nat)) addr with
          | some t => decide (now - t < 20)
          | none => false) = false := rfl
      rw [hnd, if_neg Bool.false_ne_true]
      cases probe with
      | knownClient ok =>
        cases ok with
        | true => intro h; exact UdpAction.noConfusion h
        | false => intro h; exact UdpAction.noConfusion h
      | newClient => intro h; exact UdpAction.noConfusion h
      | noMatch => intro h; exact UdpAction.noConfusion h

/-- C7: the dead-client window never fires.  `dead_clients` is a local
variable of `udp_server_run`, which handles a single datagram per call;
the entry inserted for an unmatched peer is discarded on return, so no
later datagram is ever dropped by the 20-second window and every
datagram from such a peer is probed again.  This contradicts the claimed
(and commented) 20-second drop behaviour. -/
theorem c7_dead_window_never_drops (pv : Nat)
    (ds : List (Nat × List Nat × Nat × ProbeOutcome)) :
    UdpAction.dropDead ∉ createUdpServer pv ds := by
  induction ds with
  | nil => intro h; exact List.not_mem_nil _ h
  | cons d t ih =>
    obtain ⟨now, payload, addr, probe⟩ := d
    intro h
    rcases List.mem_cons.mp h with heq | hmem
    · exact udpServerRun_no_drop pv now payload addr probe heq.symm
    · exact ih hmem

theorem natToBytesLE_bytesToNatLE (k : Nat) (bs : List Nat)
    (hlen : bs.length = k) (hb : ∀ b ∈ bs, b < 256) :
    natToBytesLE k (bytesToNatLE bs) = bs := by
  rw [natToBytesLE, bytesToNatLE,
    natToBytesBE_bytesToNatBE k bs.reverse (by simp [hlen])
      (fun b hb2 => hb b (List.mem_reverse.mp hb2)),
    List.reverse_reverse]

/-- C8: a 12-byte datagram whose first four bytes are zero (read as a
big-endian `u32`) is answered by exactly 24 bytes: the protocol version
big-endian, the 8 received timestamp bytes echoed unchanged (read and
written little-endian), then big-endian 0 users, 250 max users and 72000
max bandwidth; the dead-clients map is untouched. -/
theorem c8_anon_ping (pv now : Nat) (dead : List (Nat × Nat)) (addr : Nat)
    (probe : ProbeOutcome) (b4 b5 b6 b7 b8 b9 b10 b11 : Nat)
    (hbytes : ∀ b ∈ [b4, b5, b6, b7, b8, b9, b10, b11], b < 256) :
    udpServerRunWith pv now dead
        [0, 0, 0, 0, b4, b5, b6, b7, b8, b9, b10, b11] addr probe
      = (.pingReply (natToBytesBE 4 pv ++ [b4, b5, b6, b7, b8, b9, b10, b11,
          0, 0, 0, 0, 0, 0, 0, 250, 0, 1, 25, 64]), dead)
    ∧ (natToBytesBE 4 pv ++ [b4, b5, b6, b7, b8, b9, b10, b11,
        0, 0, 0, 0, 0, 0, 0, 250, 0, 1, 25, 64]).length = 24 := by
  constructor
  · rw [udpServerRunWith_cons]
    rw [if_pos ⟨rfl, rfl⟩]
    have htake : (([b4, b5, b6, b7, b8, b9, b10, b11] : List Nat).take 8)
        = [b4, b5, b6, b7, b8, b9, b10, b11] := rfl
    rw [htake,
      natToBytesLE_bytesToNatLE 8 [b4, b5, b6, b7, b8, b9, b10, b11] rfl hbytes]
    rfl
  · simp [natToBytesBE_length]

/-- C8: the anonymous-ping reply at a concrete datagram (protocol
version 0x10205, timestamp bytes `88 77 66 55 44 33 22 11`). -/
theorem c8_anon_ping_witness :
    udpServerRunWith 66053 0 []
        [0, 0, 0, 0, 136, 119, 102, 85, 68, 51, 34, 17] 5 .noMatch
      = (.pingReply ([0, 1, 2, 5] ++ [136, 119, 102, 85, 68, 51, 34, 17,
          0, 0, 0, 0, 0, 0, 0, 250, 0, 1, 25, 64]), [])
    ∧ (([0, 1, 2, 5] : List Nat) ++ [136, 119, 102, 85, 68, 51, 34, 17,
        0, 0, 0, 0, 0, 0, 0, 250, 0, 1, 25, 64]).length = 24 := by
  have h := c8_anon_ping 66053 0 [] 5 .noMatch 136 119 102 85 68 51 34 17
    (by decide)
  refine ⟨?_, ?_⟩
  · rw [h.1]
    rfl
  · exact h.2


/-! ## Channel map and the Root channel (C9)

Model of the channel bookkeeping in `ServerState` (`src/state.rs`) and of
the two handlers that remove channels (`src/handler/user_state.rs`,
`src/handler/channel_state.rs`).  Clients carry their current channel id;
channels carry their parent and the `temporary` flag.  The only removals
from the channel map are of ids returned by `check_leave_channel`;
`disconnect` calls it but drops the result. -/

structure ChanM where
  channelId : Nat
  parentId : Option Nat
  temporary : Bool
deriving DecidableEq

structure ChanClient where
  sessionId : Nat
  channelId : Nat
deriving DecidableEq

structure ChanSrv where
  clients : List (Nat × ChanClient)
  channels : List (Nat × ChanM)

/-- `ServerState::new`: the channel map holds only the Root channel,
built by `Channel::new(0, Some(0), "Root", "Root channel", false)`. -/
def initialChanSrv : ChanSrv :=
  { clients := [], channels := [(0, ⟨0, some 0, false⟩)] }

/-- `ServerState::check_leave_channel`: a channel id survives if some
client sits in it or some channel has it as parent; otherwise it is
reported for removal when temporary or missing. -/
def checkLeaveChannel (s : ChanSrv) (leaveId : Nat) : Option Nat :=
  if s.clients.any (fun p => decide (p.2.channelId = leaveId)) then none
  else if s.channels.any (fun p => decide (p.2.parentId = some leaveId)) then none
  else match alookup s.channels leaveId with
    | some ch => if ch.temporary then some leaveId else none
    | none => some leaveId

def getFreeChannelIdGo (chs : List (Nat × ChanM)) : Nat → Nat → Nat
  | 0, cur => cur
  | fuel + 1, cur =>
    match alookup chs cur with
    | some _ => getFreeChannelIdGo chs fuel (cur + 1)
    | none => cur

/-- `ServerState::get_free_channel_id`: the smallest unused id, scanning
upward from 1.  The scan needs at most one step per existing channel, so
fuel `length + 1` never runs out. -/
def getFreeChannelId (s : ChanSrv) : Nat :=
  getFreeChannelIdGo s.channels (s.channels.length + 1) 1

/-- `ServerState::add_channel`: insert a fresh channel under the given
parent and return its id. -/
def addChannel (s : ChanSrv) (parent : Nat) (temp : Bool) : ChanSrv × Nat :=
  ({ s with channels := (insertA s.channels (getFreeChannelId s)
      ⟨getFreeChannelId s, some parent, temp⟩) }, getFreeChannelId s)

/-- `ServerState::set_client_channel` composed with
`Client::join_channel`: move the client and check whether its old channel
should go away. -/
def setClientChannel (s : ChanSrv) (sid cid : Nat) : ChanSrv × Option Nat :=
  match alookup s.clients sid with
  | none => (s, none)
  | some c =>
    if cid = c.channelId then (s, none)
    else
      (⟨insertA s.clients sid { c with channelId := cid }, s.channels⟩,
        checkLeaveChannel
          ⟨insertA s.clients sid { c with channelId := cid }, s.channels⟩
          c.channelId)

/-- Channel removal as done by the `UserState` and `ChannelState`
handlers on a `Some` result of `set_client_channel`. -/
def applyRemoveIfLeave (s : ChanSrv) (leave : Option Nat) : ChanSrv :=
  match leave with
  | some l => { s with channels := eraseA s.channels l }
  | none => s

/-- The channel-move part of the `UserState` handler (`user_state.rs`
lines 23-34). -/
def applyUserJoin (s : ChanSrv) (sid cid : Nat) : ChanSrv :=
  applyRemoveIfLeave (setClientChannel s sid cid).1 (setClientChannel s sid cid).2

/-- The `ChannelState` handler for a new channel (`channel_state.rs`):
create it, join it, and remove the vacated channel if reported. -/
def applyChannelCreate (s : ChanSrv) (sid parent : Nat) (temp : Bool) : ChanSrv :=
  applyUserJoin (addChannel s parent temp).1 sid (addChannel s parent temp).2

/-- `ServerState::add_client`: new clients start in channel 0. -/
def applyConnect (s : ChanSrv) (sid : Nat) : ChanSrv :=
  { s with clients := insertA s.clients sid ⟨sid, 0⟩ }

/-- `ServerState::disconnect`: the client goes away; the final
`check_leave_channel` call has its `Some` result ignored, so the channel
map is untouched. -/
def applyDisconnect (s : ChanSrv) (sid : Nat) : ChanSrv :=
  { s with clients := eraseA s.clients sid }

/-- Server states reachable from the initial state through the modelled
handlers. -/
inductive ChanReachable : ChanSrv → Prop where
  | init : ChanReachable initialChanSrv
  | connect (s : ChanSrv) (h : ChanReachable s) (sid : Nat) :
      ChanReachable (applyConnect s sid)
  | userJoin (s : ChanSrv) (h : ChanReachable s) (sid cid : Nat) :
      ChanReachable (applyUserJoin s sid cid)
  | channelCreate (s : ChanSrv) (h : ChanReachable s) (sid parent : Nat)
      (temp : Bool) : ChanReachable (applyChannelCreate s sid parent temp)
  | disconnect (s : ChanSrv) (h : ChanReachable s) (sid : Nat) :
      ChanReachable (applyDisconnect s sid)

theorem alookup_mem {α : Type} :
    ∀ (l : List (Nat × α)) (k : Nat) (v : α),
      alookup l k = some v → (k, v) ∈ l := by
  intro l
  induction l with
  | nil => intro k v h; exact Option.noConfusion h
  | cons p t ih =>
    intro k v h
    obtain ⟨k0, v0⟩ := p
    rw [alookup] at h
    by_cases hk : k0 = k
    · rw [if_pos hk] at h
      injection h with h
      subst hk
      subst h
      exact List.mem_cons_self _ _
    · rw [if_neg hk] at h
      exact List.mem_cons_of_mem _ (ih k v h)

theorem alookup_insertA_ne {α : Type} :
    ∀ (l : List (Nat × α)) (k j : Nat) (v : α), ¬ k = j →
      alookup (insertA l k v) j = alookup l j := by
  intro l
  induction l with
  | nil =>
    intro k j v hne
    rw [insertA]
    show (if k = j then some v else alookup ([] : List (Nat × α)) j)
        = alookup ([] : List (Nat × α)) j
    rw [if_neg hne]
  | cons p t ih =>
    intro k j v hne
    obtain ⟨k0, v0⟩ := p
    rw [insertA]
    by_cases hk : k0 = k
    · rw [if_pos hk, alookup, if_neg hne, alookup,
        if_neg (fun h => hne (hk.symm.trans h))]
    · rw [if_neg hk, alookup, alookup]
      by_cases hj : k0 = j
      · rw [if_pos hj, if_pos hj]
      · rw [if_neg hj, if_neg hj]
        exact ih k j v hne

theorem alookup_eraseA_ne {α : Type} :
    ∀ (l : List (Nat × α)) (k j : Nat), ¬ k = j →
      alookup (eraseA l k) j = alookup l j := by
  intro l
  induction l with
  | nil => intro k j hne; rw [eraseA]
  | cons p t ih =>
    intro k j hne
    obtain ⟨k0, v0⟩ := p
    rw [eraseA]
    by_cases hk : k0 = k
    · rw [if_pos hk]
      have h2 : alookup ((k0, v0) :: t) j = alookup t j := by
        rw [alookup, if_neg (fun h => hne (hk.symm.trans h))]
      exact h2.symm
    · rw [if_neg hk, alookup, alookup]
      by_cases hj : k0 = j
      · rw [if_pos hj, if_pos hj]
      · rw [if_neg hj, if_neg hj]
        exact ih k j hne

theorem getFreeChannelIdGo_ge (chs : List (Nat × ChanM)) :
    ∀ (fuel cur : Nat), cur ≤ getFreeChannelIdGo chs fuel cur := by
  intro fuel
  induction fuel with
  | zero => intro cur; exact Nat.le_refl _
  | succ fuel ih =>
    intro cur
    rw [getFreeChannelIdGo]
    cases halook : alookup chs cur with
    | some ch =>
      dsimp only
      exact Nat.le_trans (Nat.le_succ cur) (ih (cur + 1))
    | none => exact Nat.le_refl _

theorem checkLeaveChannel_some {s : ChanSrv} {i l : Nat}
    (h : checkLeaveChannel s i = some l) : l = i := by
  rw [checkLeaveChannel] at h
  split at h
  · exact Option.noConfusion h
  · split at h
    · exact Option.noConfusion h
    · split at h
      · split at h
        · injection h with h2
          exact h2.symm
        · exact Option.noConfusion h
      · injection h with h2
        exact h2.symm

/-- Channel 0 always survives `check_leave_channel` while some channel
has parent 0; the Root channel is its own parent, so its presence is
enough. -/
theorem checkLeaveChannel_zero (s : ChanSrv) (ch : ChanM)
    (h0 : alookup s.channels 0 = some ch) (hp : ch.parentId = some 0) :
    checkLeaveChannel s 0 = none := by
  rw [checkLeaveChannel]
  by_cases hc : (s.clients.any fun p => decide (p.2.channelId = 0)) = true
  · rw [if_pos hc]
  · have hany : (s.channels.any fun p => decide (p.2.parentId = some 0)) = true := by
      rw [List.any_eq_true]
      refine ⟨(0, ch), alookup_mem _ _ _ h0, ?_⟩
      simp [hp]
    rw [if_neg hc, if_pos hany]

theorem setClientChannel_spec (s : ChanSrv) (sid cid : Nat) :
    (setClientChannel s sid cid).1.channels = s.channels
    ∧ ((setClientChannel s sid cid).2 = none
      ∨ ∃ old, (setClientChannel s sid cid).2
          = checkLeaveChannel (setClientChannel s sid cid).1 old) := by
  rw [setClientChannel]
  cases halook : alookup s.clients sid with
  | none => exact ⟨rfl, Or.inl rfl⟩
  | some c =>
    dsimp only
    by_cases hcid : cid = c.channelId
    · rw [if_pos hcid]
      exact ⟨rfl, Or.inl rfl⟩
    · rw [if_neg hcid]
      exact ⟨rfl, Or.inr ⟨c.channelId, rfl⟩⟩

theorem rootInv_userJoin (s : ChanSrv) (sid cid : Nat)
    (hinv : ∃ ch, alookup s.channels 0 = some ch ∧ ch.parentId = some 0) :
    ∃ ch, alookup (applyUserJoin s sid cid).channels 0 = some ch
      ∧ ch.parentId = some 0 := by
  obtain ⟨hch, hopt⟩ := setClientChannel_spec s sid cid
  have hinv2 : ∃ ch, alookup (setClientChannel s sid cid).1.channels 0 = some ch
      ∧ ch.parentId = some 0 := by
    obtain ⟨ch, h0, hp⟩ := hinv
    exact ⟨ch, by rw [hch]; exact h0, hp⟩
  rw [applyUserJoin]
  cases hres : (setClientChannel s sid cid).2 with
  | none => exact hinv2
  | some l =>
    obtain ⟨ch, h0, hp⟩ := hinv2
    have hne : ¬ l = 0 := by
      intro hl0
      subst hl0
      rcases hopt with hnone | ⟨old, hold⟩
      · rw [hnone] at hres
        exact Option.noConfusion hres
      · rw [hold] at hres
        have hli := checkLeaveChannel_some hres
        rw [← hli] at hres
        rw [checkLeaveChannel_zero _ ch h0 hp] at hres
        exact Option.noConfusion hres
    refine ⟨ch, ?_, hp⟩
    show alookup (eraseA (setClientChannel s sid cid).1.channels l) 0 = some ch
    rw [alookup_eraseA_ne _ _ _ hne]
    exact h0

theorem rootInv_channelCreate (s : ChanSrv) (sid parent : Nat) (temp : Bool)
    (hinv : ∃ ch, alookup s.channels 0 = some ch ∧ ch.parentId = some 0) :
    ∃ ch, alookup (applyChannelCreate s sid parent temp).channels 0 = some ch
      ∧ ch.parentId = some 0 := by
  rw [applyChannelCreate]
  apply rootInv_userJoin
  obtain ⟨ch, h0, hp⟩ := hinv
  refine ⟨ch, ?_, hp⟩
  show alookup (insertA s.channels (getFreeChannelId s)
      ⟨getFreeChannelId s, some parent, temp⟩) 0 = some ch
  have hne : ¬ getFreeChannelId s = 0 := by
    have hge := getFreeChannelIdGo_ge s.channels (s.channels.length + 1) 1
    intro heq
    rw [getFreeChannelId] at heq
    omega
  rw [alookup_insertA_ne _ _ _ _ hne]
  exact h0

/-- C9: every reachable server state still has channel 0 in its channel
map, the stored Root channel has parent 0 (itself), and consequently
`check_leave_channel 0` returns `None`, so no handler ever removes the
Root channel. -/
theorem c9_root_channel (s : ChanSrv) (h : ChanReachable s) :
    (∃ ch, alookup s.channels 0 = some ch ∧ ch.parentId = some 0)
    ∧ checkLeaveChannel s 0 = none := by
  have hinv : ∃ ch, alookup s.channels 0 = some ch ∧ ch.parentId = some 0 := by
    induction h with
    | init => exact ⟨⟨0, some 0, false⟩, rfl, rfl⟩
    | connect s2 h2 sid ih =>
      obtain ⟨ch, h0, hp⟩ := ih
      exact ⟨ch, h0, hp⟩
    | userJoin s2 h2 sid cid ih => exact rootInv_userJoin s2 sid cid ih
    | channelCreate s2 h2 sid parent temp ih =>
      exact rootInv_channelCreate s2 sid parent temp ih
    | disconnect s2 h2 sid ih =>
      obtain ⟨ch, h0, hp⟩ := ih
      exact ⟨ch, h0, hp⟩
  obtain ⟨ch, h0, hp⟩ := hinv
  exact ⟨⟨ch, h0, hp⟩, checkLeaveChannel_zero s ch h0 hp⟩

/-- C9: the invariant at the initial state. -/
theorem c9_root_channel_witness :
    (∃ ch, alookup initialChanSrv.channels 0 = some ch ∧ ch.parentId = some 0)
    ∧ checkLeaveChannel initialChanSrv 0 = none :=
  c9_root_channel initialChanSrv ChanReachable.init

end Zumble
